import Mathlib

/-!
Shallow embedding of the detection-and-deduplication core of LexAudit:
`src/lexaudit/extraction/detector/snippets.py`,
`src/lexaudit/extraction/detector/deduplicator.py` and
`src/lexaudit/extraction/detector/citation_detector.py`.

Conventions:
* A Python `str` is a `List Char`; indices and positions are `Int`
  (Python integers).  `pyCharAt t i` models an in-range access `text[i]`;
  every use below sits behind the same bounds guard as the source, and the
  places where the source itself can index out of range are noted.
* Python `None`-able integer parameters are `Option Int`; Python truthiness
  of `max_backtrack` / `max_ahead` (`0` and `None` both falsy) is modelled
  explicitly.
* Loops are embedded as fuel-indexed recursions whose fuel bounds the exact
  number of iterations the Python loop performs.
-/

namespace LexAudit

/-- In-range character access `text[i]`; out-of-range yields a NUL sentinel
(which is neither punctuation, digit, newline nor whitespace). -/
def pyCharAt (t : List Char) (i : Int) : Char :=
  if 0 ≤ i then t.getD i.toNat '\x00' else '\x00'

/-- Python `str.isspace` on the whitespace code points it recognizes. -/
def isPySpace (c : Char) : Bool :=
  c = ' ' || ('\x09' ≤ c && c ≤ '\x0d') || ('\x1c' ≤ c && c ≤ '\x1f') ||
  c = '\x85' || c = '\xa0' || c.val = 0x1680 ||
  (0x2000 ≤ c.val && c.val ≤ 0x200a) || c.val = 0x2028 || c.val = 0x2029 ||
  c.val = 0x202f || c.val = 0x205f || c.val = 0x3000

/-- Python `str.isdigit` (the texts this core handles use ASCII digits). -/
def isPyDigit (c : Char) : Bool := c.isDigit

/-- Python `str.lower`, per character (ASCII case map; on any token whose
lowering can lie in the abbreviation list below this agrees with Python). -/
def pyLower (c : Char) : Char := c.toLower

/-- snippets.py `_ABBREVIATIONS`. -/
def _ABBREVIATIONS : List String :=
  ["art.", "arts.", "inc.", "incs.", "al.", "n.", "nº", "no.", "vol.", "v.", "vs."]

/-- snippets.py `_is_decimal_point`. -/
def _is_decimal_point (t : List Char) (i : Int) : Bool :=
  if i < 0 || (t.length : Int) ≤ i || pyCharAt t i ≠ '.' then false
  else
    -- prev_c / next_c are the empty string when out of range; "".isdigit() is false
    (decide (1 ≤ i) && isPyDigit (pyCharAt t (i - 1))) &&
    (decide (i + 1 < (t.length : Int)) && isPyDigit (pyCharAt t (i + 1)))

/-- The `j + 1` value of the backward scan `while j >= 0 and not text[j].isspace()`
started at `j = i - 1`: the start index of the whitespace-delimited token ending at `i`. -/
def tokenStart (t : List Char) : Nat → Nat
  | 0 => 0
  | k + 1 => if isPySpace (t.getD k '\x00') then k + 1 else tokenStart t k

/-- snippets.py `_looks_like_abbreviation`. -/
def _looks_like_abbreviation (t : List Char) (i : Int) : Bool :=
  if i < 0 || (t.length : Int) ≤ i || pyCharAt t i ≠ '.' then false
  else
    let k := tokenStart t i.toNat
    let token := ((t.drop k).take (i.toNat + 1 - k)).map pyLower
    _ABBREVIATIONS.contains (String.mk token)

/-- snippets.py `_is_hard_break` (the source reads `text[i]` unguarded; callers
keep `i` in `[0, len)`, and out of that range this model returns `false`). -/
def _is_hard_break (t : List Char) (i : Int) : Bool :=
  let c := pyCharAt t i
  if c = '.' || c = '!' || c = '?' then
    if c = '.' && (_is_decimal_point t i || _looks_like_abbreviation t i) then false
    else true
  else if c = '\n' && decide (1 ≤ i) && pyCharAt t (i - 1) = '\n' then true
  else false

/-- snippets.py `_is_soft_break`. -/
def _is_soft_break (t : List Char) (i : Int) : Bool :=
  let c := pyCharAt t i
  if c = ';' || c = ':' then true
  else if c = '\n' then !(decide (1 ≤ i) && pyCharAt t (i - 1) = '\n')
  else false

/-- The backward scan of `find_left_boundary` from `i` down to `floor`,
tracking the first soft break seen; fuel is the iteration count. -/
def leftScanAux (t : List Char) (floor : Int) : Nat → Int → Option Int → Int
  | 0, _, best_soft => best_soft.getD floor
  | fuel + 1, i, best_soft =>
    if _is_hard_break t i then i + 1
    else
      let bs := if best_soft.isNone && _is_soft_break t i then some (i + 1) else best_soft
      leftScanAux t floor fuel (i - 1) bs

/-- snippets.py `find_left_boundary`. -/
def find_left_boundary (t : List Char) (anchor : Int) (min_chars : Int)
    (max_backtrack : Option Int) : Int :=
  if t.length = 0 then 0
  else
    let n : Int := t.length
    let a := max 0 (min anchor n)
    let target := max 0 (a - max 0 min_chars)
    let floor := match max_backtrack with
      | none => 0
      | some v => if v = 0 then 0 else max 0 (a - v)
    leftScanAux t floor (target - floor + 1).toNat target none

/-- The forward scan of `find_right_boundary` from `i` up, fuel = `ceil - i`. -/
def rightScanAux (t : List Char) (ceil : Int) : Nat → Int → Option Int → Int
  | 0, _, best_soft => best_soft.getD ceil
  | fuel + 1, i, best_soft =>
    if _is_hard_break t i then i + 1
    else
      let bs := if best_soft.isNone && _is_soft_break t i then some (i + 1) else best_soft
      rightScanAux t ceil fuel (i + 1) bs

/-- snippets.py `find_right_boundary`. -/
def find_right_boundary (t : List Char) (anchor : Int) (min_chars : Int)
    (max_ahead : Option Int) : Int :=
  if t.length = 0 then 0
  else
    let n : Int := t.length
    let a := max 0 (min anchor n)
    let target := min n (a + max 0 min_chars)
    let ceil := match max_ahead with
      | none => n
      | some v => if v = 0 then n else min n (a + v)
    rightScanAux t ceil (ceil - target).toNat target none

/-- snippets.py `build_sentence_bounded_range`. -/
def build_sentence_bounded_range (t : List Char) (start «end» : Int) (min_chars : Int)
    (max_chars : Option Int) (lock_left lock_right : Bool) : Int × Int :=
  if t.length = 0 then (0, 0)
  else
    let n : Int := t.length
    let s0 := max 0 (min start n)
    let e0 := max 0 (min «end» n)
    let s := if e0 < s0 then e0 else s0
    let e := if e0 < s0 then s0 else e0
    let left := if lock_left then s else find_left_boundary t s min_chars max_chars
    let right := if lock_right then e else find_right_boundary t e min_chars max_chars
    (min left s, max right e)

/-- The forward pass of `choose_split_without_overlap` over the segment:
tracks the last hard break and the first soft break (`elif`: a position that is
a hard break is not examined for softness). -/
def splitScan (t : List Char) : Nat → Int → Option Int → Option Int → Option Int × Option Int
  | 0, _, best_hard, best_soft => (best_hard, best_soft)
  | fuel + 1, i, best_hard, best_soft =>
    if _is_hard_break t i then splitScan t fuel (i + 1) (some (i + 1)) best_soft
    else
      let bs := if best_soft.isNone && _is_soft_break t i then some (i + 1) else best_soft
      splitScan t fuel (i + 1) best_hard bs

/-- The fallback scan `j = mid; while j > left_min: if text[j].isspace(): return j`. -/
def wsSearch (t : List Char) (left_min : Int) : Nat → Int → Option Int
  | 0, _ => none
  | fuel + 1, j =>
    if j ≤ left_min then none
    else if isPySpace (pyCharAt t j) then some j
    else wsSearch t left_min fuel (j - 1)

/-- snippets.py `choose_split_without_overlap` (the `prefer_rightmost` parameter
is unused in the source body and omitted). -/
def choose_split_without_overlap (t : List Char) (left_min right_max : Int) : Int :=
  let lm := max 0 left_min
  let rm := max lm right_max
  let n : Int := t.length
  -- `segment = text[lm:rm]`: the enumerated indices are [min lm n, min rm n)
  let lo := min lm n
  let hi := min rm n
  let scanned := splitScan t (hi - lo).toNat lo none none
  match scanned.1 with
  | some h => h
  | none =>
    match scanned.2 with
    | some s => s
    | none =>
      let mid := (lm + rm) / 2
      match wsSearch t lm (mid - lm).toNat mid with
      | some j => j
      | none => rm

/-! ## Data model (core/models.py `CitationSuspect`) -/

inductive DetectorType
  | linker
  | regex
deriving DecidableEq

/-- core/models.py `CitationSuspect`.  The `identified_citations` enrichment
payload is opaque to this core and modelled by abstract tokens. -/
structure CitationSuspect where
  suspect_string : List Char
  context_snippet : List Char
  start : Int
  «end» : Int
  detector_type : DetectorType
  identified_citations : List Nat
deriving DecidableEq

/-! ## deduplicator.py -/

/-- deduplicator.py `_overlaps` on half-open ranges. -/
def _overlaps (a b : Int × Int) : Bool :=
  decide (a.1 < b.2) && decide (b.1 < a.2)

/-- deduplicator.py `_Cluster` (field defaults as in the dataclass). -/
structure _Cluster where
  members : List CitationSuspect := []
  prelim_left : Int := 0
  prelim_right : Int := 0
  cov_start : Int := 0
  cov_end : Int := 0
  snip_start : Int := 0
  snip_end : Int := 0
  rep : Option CitationSuspect := none
deriving DecidableEq

/-- deduplicator.py `_filter_regex_overlapping_linker`. -/
def _filter_regex_overlapping_linker (linkers regexes : List CitationSuspect) :
    List CitationSuspect :=
  let linker_spans := linkers.map fun c => (c.start, c.«end»)
  regexes.filter fun c => !(linker_spans.any fun s => _overlaps (c.start, c.«end») s)

/-- deduplicator.py `_preliminary_window`. -/
def _preliminary_window (t : List Char) (s : CitationSuspect) (min_chars : Int)
    (max_chars : Option Int) : Int × Int :=
  build_sentence_bounded_range t s.start s.«end» min_chars max_chars false false

/-- Insert into a sorted list before the first element not below `a`. -/
def pyInsert {α : Type} (le : α → α → Bool) (a : α) : List α → List α
  | [] => [a]
  | b :: l => if le a b then a :: b :: l else b :: pyInsert le a l

/-- Python's `sorted(...)` with a `≤`-comparison derived from the sort key:
a stable sort (insertion formulation, which agrees with Python's stable
Timsort for any total preorder comparison). -/
def pySorted {α : Type} (le : α → α → Bool) : List α → List α
  | [] => []
  | a :: l => pyInsert le a (pySorted le l)

/-- Sort key `(start, end)` used for suspects (`sorted` / `list.sort` are stable;
so is `pySorted` with this reflexive comparison). -/
def suspectLe (a b : CitationSuspect) : Bool :=
  decide (a.start < b.start) || (decide (a.start = b.start) && decide (a.«end» ≤ b.«end»))

/-- Sort key `(w[0], w[1])` used for preliminary windows. -/
def windowLe (a b : Int × Int × CitationSuspect) : Bool :=
  decide (a.1 < b.1) || (decide (a.1 = b.1) && decide (a.2.1 ≤ b.2.1))

/-- A fresh single-member cluster for a window triple. -/
def mkCluster (w : Int × Int × CitationSuspect) : _Cluster :=
  { members := [w.2.2], prelim_left := w.1, prelim_right := w.2.1,
    cov_start := w.2.2.start, cov_end := w.2.2.«end» }

/-- The left-to-right grouping walk of `_build_clusters`, with the cluster list
reversed (head = the `clusters[-1]` the source mutates). -/
def buildClustersRev : List (Int × Int × CitationSuspect) → List _Cluster → List _Cluster
  | [], acc => acc
  | w :: ws, [] => buildClustersRev ws [mkCluster w]
  | w :: ws, last :: rest =>
    if last.prelim_right < w.1 then
      buildClustersRev ws (mkCluster w :: last :: rest)
    else
      buildClustersRev ws
        ({ last with
            members := last.members ++ [w.2.2],
            prelim_right := max last.prelim_right w.2.1,
            cov_start := min last.cov_start w.2.2.start,
            cov_end := max last.cov_end w.2.2.«end» } :: rest)

/-- deduplicator.py `_build_clusters` (sorts its input by `(w[0], w[1])` first). -/
def _build_clusters (windows : List (Int × Int × CitationSuspect)) : List _Cluster :=
  (buildClustersRev (pySorted windowLe windows) []).reverse

/-- deduplicator.py `_has_left_linker_anchor`. -/
def _has_left_linker_anchor (cl : _Cluster) : Bool :=
  cl.members.any fun m =>
    decide (m.detector_type = DetectorType.linker) && decide (m.start = cl.cov_start)

/-- deduplicator.py `_has_right_linker_anchor`. -/
def _has_right_linker_anchor (cl : _Cluster) : Bool :=
  cl.members.any fun m =>
    decide (m.detector_type = DetectorType.linker) && decide (m.«end» = cl.cov_end)

/-- deduplicator.py `_compute_cluster_snippet_range`. -/
def _compute_cluster_snippet_range (t : List Char) (cl : _Cluster) (min_chars : Int)
    (max_chars : Option Int) (prefer_linker_edges : Bool) : Int × Int :=
  let lock_left := prefer_linker_edges && _has_left_linker_anchor cl
  let lock_right := prefer_linker_edges && _has_right_linker_anchor cl
  build_sentence_bounded_range t cl.cov_start cl.cov_end min_chars max_chars
    lock_left lock_right

/-- Strict comparison for Python's `min(..., key=lambda m: (m.start, m.end))`. -/
def suspectKeyLt (a b : CitationSuspect) : Bool :=
  decide (a.start < b.start) || (decide (a.start = b.start) && decide (a.«end» < b.«end»))

/-- Python `min(l, key=(start, end))`: the first element with minimal key;
`none` on the empty list (where Python raises `ValueError`). -/
def pyMinByStartEnd : List CitationSuspect → Option CitationSuspect
  | [] => none
  | x :: xs => some (xs.foldl (fun acc m => if suspectKeyLt m acc then m else acc) x)

/-- deduplicator.py `_choose_representative`. -/
def _choose_representative (cl : _Cluster) : Option CitationSuspect :=
  let linkers := cl.members.filter fun m => decide (m.detector_type = DetectorType.linker)
  match linkers with
  | [] => pyMinByStartEnd cl.members
  | _ :: _ => pyMinByStartEnd linkers

/-- One-pass body of the `while i < len(clusters)` loop of
`_reconcile_adjacent_clusters`, fuel-indexed; the loop index starts at 1 and
never returns to 0, so the `clusters[i-1]` access is in range. -/
def reconGo (t : List Char) (min_chars : Int) (max_chars : Option Int) (prefer : Bool) :
    Nat → List _Cluster → Nat → List _Cluster
  | 0, clusters, _ => clusters
  | fuel + 1, clusters, i =>
    if i < clusters.length then
      let prev := clusters.getD (i - 1) {}
      let curr := clusters.getD i {}
      if prev.snip_end ≤ curr.snip_start then
        reconGo t min_chars max_chars prefer fuel clusters (i + 1)
      else if curr.cov_start < prev.cov_end then
        -- coverage overlap: merge, recompute snippet and representative, re-check
        let merged0 : _Cluster :=
          { members := prev.members ++ curr.members,
            prelim_left := min prev.prelim_left curr.prelim_left,
            prelim_right := max prev.prelim_right curr.prelim_right,
            cov_start := min prev.cov_start curr.cov_start,
            cov_end := max prev.cov_end curr.cov_end }
        let sr := _compute_cluster_snippet_range t merged0 min_chars max_chars prefer
        let merged :=
          { merged0 with snip_start := sr.1, snip_end := sr.2,
                         rep := _choose_representative merged0 }
        reconGo t min_chars max_chars prefer fuel
          (clusters.take (i - 1) ++ merged :: clusters.drop (i + 1)) i
      else
        -- no coverage overlap: trim the previous snippet, never below coverage
        let prev' :=
          { prev with snip_end := max prev.cov_end (min prev.snip_end curr.snip_start) }
        reconGo t min_chars max_chars prefer fuel (clusters.set (i - 1) prev') (i + 1)
    else clusters

/-- deduplicator.py `_reconcile_adjacent_clusters`: the loop makes at most
`2 * len(clusters)` iterations (each one advances `i` or drops a cluster),
so this fuel realizes the full loop. -/
def _reconcile_adjacent_clusters (clusters : List _Cluster) (t : List Char)
    (min_chars : Int) (max_chars : Option Int) (prefer : Bool) : List _Cluster :=
  reconGo t min_chars max_chars prefer (2 * clusters.length + 1) clusters 1

/-- Python slice index normalization for `text[a:b]`. -/
def pySliceIdx (n : Nat) (x : Int) : Nat :=
  if x < 0 then ((n : Int) + x).toNat else min x.toNat n

/-- Python `text[a:b]`. -/
def pySlice (t : List Char) (a b : Int) : List Char :=
  let a' := pySliceIdx t.length a
  let b' := pySliceIdx t.length b
  (t.drop a').take (b' - a')

/-- Python `str.strip()`. -/
def pyStrip (l : List Char) : List Char :=
  ((l.dropWhile isPySpace).reverse.dropWhile isPySpace).reverse

/-- Step 1 of `deduplicate`: sort both inputs by `(start, end)` and drop the
regex suspects overlapping a linker span. -/
def dedupInputs (linker regex : List CitationSuspect) :
    List CitationSuspect × List CitationSuspect :=
  let link_sorted := pySorted suspectLe linker
  let regex_sorted := pySorted suspectLe regex
  (link_sorted, _filter_regex_overlapping_linker link_sorted regex_sorted)

/-- Step 2: preliminary windows for all surviving suspects. -/
def dedupWindows (t : List Char) (linker regex : List CitationSuspect)
    (min_chars : Int) (max_chars : Option Int) : List (Int × Int × CitationSuspect) :=
  let p := dedupInputs linker regex
  (p.1 ++ p.2).map fun s =>
    let w := _preliminary_window t s min_chars max_chars
    (w.1, w.2, s)

/-- Step 3: clusters grouped by overlapping preliminary windows. -/
def dedupClustersGrouped (t : List Char) (linker regex : List CitationSuspect)
    (min_chars : Int) (max_chars : Option Int) : List _Cluster :=
  _build_clusters (dedupWindows t linker regex min_chars max_chars)

/-- Step 4: per-cluster final snippet range and representative. -/
def dedupClustersSnipped (t : List Char) (linker regex : List CitationSuspect)
    (min_chars : Int) (max_chars : Option Int) (prefer : Bool) : List _Cluster :=
  (dedupClustersGrouped t linker regex min_chars max_chars).map fun cl =>
    let sr := _compute_cluster_snippet_range t cl min_chars max_chars prefer
    { cl with snip_start := sr.1, snip_end := sr.2, rep := _choose_representative cl }

/-- Step 5: adjacent-cluster reconciliation. -/
def dedupClustersFinal (t : List Char) (linker regex : List CitationSuspect)
    (min_chars : Int) (max_chars : Option Int) (prefer : Bool) : List _Cluster :=
  _reconcile_adjacent_clusters (dedupClustersSnipped t linker regex min_chars max_chars prefer)
    t min_chars max_chars prefer

/-- deduplicator.py `deduplicate`: emit each final cluster's representative with
`context_snippet = text[snip_start:snip_end].strip()`, sorted by `(start, end)`.
(The `rep is None` fallback re-chooses a representative; on a cluster with no
members — unreachable — nothing is emitted where Python would raise.) -/
def deduplicate (t : List Char) (linker regex : List CitationSuspect)
    (snippet_min_chars : Int) (snippet_max_chars : Option Int)
    (prefer_linker_edges : Bool) : List CitationSuspect :=
  let clusters := dedupClustersFinal t linker regex snippet_min_chars snippet_max_chars
    prefer_linker_edges
  let final_items := clusters.filterMap fun cl =>
    let rep? : Option CitationSuspect :=
      match cl.rep with
      | some r => some r
      | none => _choose_representative cl
    rep?.map fun rep =>
      { rep with context_snippet := pyStrip (pySlice t cl.snip_start cl.snip_end) }
  pySorted suspectLe final_items

/-! ## citation_detector.py -/

inductive LinkerError
  | execution
  | parsing
deriving DecidableEq

/-- A Python `TypeError` raised at a call site: the callee got a keyword
argument not in its signature. -/
inductive PyCallError
  | unexpectedKeyword (kw : String)
deriving DecidableEq

/-- The keyword-only parameter names in `deduplicate`'s signature. -/
def deduplicateKeywordParams : List String :=
  ["snippet_min_chars", "snippet_max_chars", "prefer_linker_edges"]

/-- The extra keyword arguments `detect_with_metrics` passes to `deduplicate`
(citation_detector.py line 131: `max_gap=resolved_max_gap`). -/
def detectDedupCallKeywords : List String := ["max_gap"]

/-- Suspect-count metrics (`num_l1`, `num_l2`, `num_final`; the duration
metrics are wall-clock times and are not modelled). -/
structure DetectorCounts where
  num_l1 : Nat
  num_l2 : Nat
  num_final : Nat
deriving DecidableEq

/-- citation_detector.py `CitationDetector.detect_with_metrics`.  The two
detectors are external collaborators: the linker run is an input that either
fails (`LinkerExecutionError`/`LinkerParsingError`, caught and degraded to an
empty list) or returns suspects, and the regex scanner's output is an input
list.  Python raises `TypeError` when a call passes a keyword argument the
callee does not accept; the source's `deduplicate(...)` call passes `max_gap`. -/
def detect_with_metrics (t : List Char) (use_linker : Bool)
    (linkerRun : Except LinkerError (List CitationSuspect))
    (scannerRun : List CitationSuspect) :
    Except PyCallError (List CitationSuspect × DetectorCounts) :=
  let linker_citations :=
    if use_linker then
      match linkerRun with
      | .ok l => l
      | .error _ => []   -- fallback silencioso para apenas regex
    else []
  let regex_citations := scannerRun
  match detectDedupCallKeywords.filter (fun k => !(deduplicateKeywordParams.contains k)) with
  | k :: _ => .error (.unexpectedKeyword k)
  | [] =>
    let final := deduplicate t linker_citations regex_citations 120 (some 600) true
    .ok (final,
      { num_l1 := linker_citations.length, num_l2 := regex_citations.length,
        num_final := final.length })

/-! ## Basic facts about break predicates and boundary scans -/

theorem pyCharAt_out_of_range {t : List Char} {i : Int}
    (h : i < 0 ∨ (t.length : Int) ≤ i) : pyCharAt t i = '\x00' := by
  unfold pyCharAt
  rcases h with h | h
  · rw [if_neg]; omega
  · rw [if_pos (by omega)]
    exact List.getD_eq_default _ _ (by omega)

theorem hard_break_in_range {t : List Char} {i : Int}
    (h : _is_hard_break t i = true) : 0 ≤ i ∧ i < (t.length : Int) := by
  by_contra hc
  rw [_is_hard_break, pyCharAt_out_of_range (by omega)] at h
  simp at h

theorem soft_break_in_range {t : List Char} {i : Int}
    (h : _is_soft_break t i = true) : 0 ≤ i ∧ i < (t.length : Int) := by
  by_contra hc
  rw [_is_soft_break, pyCharAt_out_of_range (by omega)] at h
  simp at h

/-- Bounds maintained by the backward scan of `find_left_boundary`. -/
theorem leftScanAux_bounds (t : List Char) (floor : Int) :
    ∀ (fuel : Nat) (i : Int) (bs : Option Int),
      0 ≤ floor → floor ≤ (t.length : Int) → i < (t.length : Int) →
      (∀ b, bs = some b → 0 ≤ b ∧ b ≤ (t.length : Int)) →
      0 ≤ leftScanAux t floor fuel i bs ∧
        leftScanAux t floor fuel i bs ≤ (t.length : Int) := by
  intro fuel
  induction fuel with
  | zero =>
    intro i bs h0 h1 _ hbs
    cases bs with
    | none => simpa [leftScanAux] using ⟨h0, h1⟩
    | some b => simpa [leftScanAux] using hbs b rfl
  | succ fuel ih =>
    intro i bs h0 h1 hi hbs
    rw [leftScanAux]
    by_cases hh : _is_hard_break t i = true
    · have := hard_break_in_range hh
      rw [if_pos hh]; omega
    · rw [if_neg hh]
      refine ih (i - 1) _ h0 h1 (by omega) ?_
      intro b hb
      by_cases hc : (bs.isNone && _is_soft_break t i) = true
      · rw [if_pos hc] at hb
        rw [Bool.and_eq_true] at hc
        have := soft_break_in_range hc.2
        injection hb with hb'; omega
      · rw [if_neg hc] at hb
        exact hbs b hb

/-- Bounds maintained by the forward scan of `find_right_boundary`. -/
theorem rightScanAux_bounds (t : List Char) (ceil : Int) :
    ∀ (fuel : Nat) (i : Int) (bs : Option Int),
      0 ≤ ceil → ceil ≤ (t.length : Int) →
      (∀ b, bs = some b → 0 ≤ b ∧ b ≤ (t.length : Int)) →
      0 ≤ rightScanAux t ceil fuel i bs ∧
        rightScanAux t ceil fuel i bs ≤ (t.length : Int) := by
  intro fuel
  induction fuel with
  | zero =>
    intro i bs h0 h1 hbs
    cases bs with
    | none => simpa [rightScanAux] using ⟨h0, h1⟩
    | some b => simpa [rightScanAux] using hbs b rfl
  | succ fuel ih =>
    intro i bs h0 h1 hbs
    rw [rightScanAux]
    by_cases hh : _is_hard_break t i = true
    · have := hard_break_in_range hh
      rw [if_pos hh]; omega
    · rw [if_neg hh]
      refine ih (i + 1) _ h0 h1 ?_
      intro b hb
      by_cases hc : (bs.isNone && _is_soft_break t i) = true
      · rw [if_pos hc] at hb
        rw [Bool.and_eq_true] at hc
        have := soft_break_in_range hc.2
        injection hb with hb'; omega
      · rw [if_neg hc] at hb
        exact hbs b hb

/-- "None or a nonnegative bound": the sane values of `max_backtrack`/`max_ahead`. -/
def optNonneg (o : Option Int) : Prop := ∀ v, o = some v → 0 ≤ v

theorem find_left_boundary_bounds (t : List Char) (anchor min_chars : Int)
    (mb : Option Int) (hmc : 1 ≤ min_chars) (hmb : optNonneg mb) :
    0 ≤ find_left_boundary t anchor min_chars mb ∧
      find_left_boundary t anchor min_chars mb ≤ (t.length : Int) := by
  rw [find_left_boundary]
  by_cases h0 : t.length = 0
  · rw [if_pos h0]; omega
  · rw [if_neg h0]
    have hn : 1 ≤ (t.length : Int) := by omega
    apply leftScanAux_bounds
    · cases mb with
      | none => simp
      | some v =>
        have := hmb v rfl
        by_cases hv : v = 0 <;> simp [hv] <;> omega
    · cases mb with
      | none => simp <;> omega
      | some v =>
        have := hmb v rfl
        by_cases hv : v = 0 <;> simp [hv] <;> omega
    · omega
    · intro b hb; cases hb

theorem find_right_boundary_bounds (t : List Char) (anchor min_chars : Int)
    (ma : Option Int) (hma : optNonneg ma) :
    0 ≤ find_right_boundary t anchor min_chars ma ∧
      find_right_boundary t anchor min_chars ma ≤ (t.length : Int) := by
  rw [find_right_boundary]
  by_cases h0 : t.length = 0
  · rw [if_pos h0]; omega
  · rw [if_neg h0]
    apply rightScanAux_bounds
    · cases ma with
      | none => simp <;> omega
      | some v =>
        have := hma v rfl
        by_cases hv : v = 0 <;> simp [hv] <;> omega
    · cases ma with
      | none => simp <;> omega
      | some v =>
        have := hma v rfl
        by_cases hv : v = 0 <;> simp [hv] <;> omega
    · intro b hb; cases hb

/-- C8 counterexample: with a negative `max_backtrack`, `find_left_boundary`
returns a position strictly beyond `len(text)` (here 7 on a 2-character text),
refuting "for every combination of arguments the result lies in [0, len]". -/
theorem find_left_boundary_escapes_bounds :
  find_left_boundary ("ab".data) 2 120 (some (-5)) = 7 ∧
    (("ab".data.length : Int) < 7) := by decide

/-- C8 (amended): for `min_chars ≥ 1` and backtrack/ahead limits that are `None`
or nonnegative, `find_left_boundary` and `find_right_boundary` return a position
inside `[0, len(text)]`, and (being pure functions of their arguments) calling
either twice with identical arguments yields identical results.  (`min_chars ≥ 1`
also keeps the source free of the `IndexError` it hits at
`min_chars = 0, anchor = len(text)`; negative limits, excluded here, are exactly
the counterexample's escape.) -/
theorem boundary_search_bounds_and_pure (t : List Char) (anchor min_chars : Int)
    (mb ma : Option Int) (hmc : 1 ≤ min_chars) (hmb : optNonneg mb)
    (hma : optNonneg ma) :
    (0 ≤ find_left_boundary t anchor min_chars mb ∧
      find_left_boundary t anchor min_chars mb ≤ (t.length : Int)) ∧
    (0 ≤ find_right_boundary t anchor min_chars ma ∧
      find_right_boundary t anchor min_chars ma ≤ (t.length : Int)) ∧
    find_left_boundary t anchor min_chars mb = find_left_boundary t anchor min_chars mb ∧
    find_right_boundary t anchor min_chars ma = find_right_boundary t anchor min_chars ma :=
  ⟨find_left_boundary_bounds t anchor min_chars mb hmc hmb,
   find_right_boundary_bounds t anchor min_chars ma hma, rfl, rfl⟩

/-- Witness for C8's amended theorem at a concrete input. -/
theorem boundary_search_bounds_and_pure_witness :
    (0 ≤ find_left_boundary ("ab".data) 2 1 (some 600) ∧
      find_left_boundary ("ab".data) 2 1 (some 600) ≤ (("ab".data).length : Int)) ∧
    (0 ≤ find_right_boundary ("ab".data) 0 1 (some 600) ∧
      find_right_boundary ("ab".data) 0 1 (some 600) ≤ (("ab".data).length : Int)) ∧
    find_left_boundary ("ab".data) 2 1 (some 600) = find_left_boundary ("ab".data) 2 1 (some 600) ∧
    find_right_boundary ("ab".data) 0 1 (some 600) = find_right_boundary ("ab".data) 0 1 (some 600) := by
  have h := boundary_search_bounds_and_pure ("ab".data) 2 1 (some 600) (some 600)
    (by decide) (fun v hv => by injection hv with h; omega)
    (fun v hv => by injection hv with h; omega)
  have h2 := boundary_search_bounds_and_pure ("ab".data) 0 1 (some 600) (some 600)
    (by decide) (fun v hv => by injection hv with h; omega)
    (fun v hv => by injection hv with h; omega)
  exact ⟨h.1, h2.2.1, rfl, rfl⟩

/-! ## C6: characterization of hard breaks -/

theorem pyCharAt_natCast (t : List Char) (i : Nat) :
    pyCharAt t (i : Int) = t.getD i '\x00' := by
  unfold pyCharAt
  rw [if_pos (Int.natCast_nonneg i)]
  simp

/-- Spec-side "decimal point": a digit immediately before and after position `i`. -/
def decimalAt (t : List Char) (i : Nat) : Prop :=
  1 ≤ i ∧ isPyDigit (t.getD (i - 1) '\x00') = true ∧
    i + 1 < t.length ∧ isPyDigit (t.getD (i + 1) '\x00') = true

/-- Spec-side "abbreviation token": `k` starts the token that runs back from the
`.` at `i` to the previous whitespace, and its lowercasing is a known abbreviation. -/
def abbrevTokenAt (t : List Char) (i k : Nat) : Prop :=
  k ≤ i ∧ (k = 0 ∨ isPySpace (t.getD (k - 1) '\x00') = true) ∧
  (∀ j, k ≤ j → j < i → isPySpace (t.getD j '\x00') = false) ∧
  String.mk (((t.drop k).take (i + 1 - k)).map pyLower) ∈ _ABBREVIATIONS

def abbrevAt (t : List Char) (i : Nat) : Prop := ∃ k, abbrevTokenAt t i k

/-- Spec-side hard break, written from the spec's words: the character is one of
`. ! ?` and, for `.`, is neither a decimal point nor the close of a known
abbreviation; or it is the second newline of a double newline. -/
def specHardBreak (t : List Char) (i : Nat) : Prop :=
  ((t.getD i '\x00' = '.' ∨ t.getD i '\x00' = '!' ∨ t.getD i '\x00' = '?') ∧
    ¬(t.getD i '\x00' = '.' ∧ (decimalAt t i ∨ abbrevAt t i))) ∨
  (t.getD i '\x00' = '\n' ∧ 1 ≤ i ∧ t.getD (i - 1) '\x00' = '\n')

theorem tokenStart_le (t : List Char) (i : Nat) : tokenStart t i ≤ i := by
  induction i with
  | zero => simp [tokenStart]
  | succ k ih => rw [tokenStart]; split <;> omega

theorem tokenStart_left (t : List Char) (i : Nat) :
    tokenStart t i = 0 ∨ isPySpace (t.getD (tokenStart t i - 1) '\x00') = true := by
  induction i with
  | zero => left; rfl
  | succ k ih =>
    rw [tokenStart]
    by_cases hk : isPySpace (t.getD k '\x00') = true
    · rw [if_pos hk]; right; simpa using hk
    · rw [if_neg hk]; exact ih

theorem tokenStart_no_space (t : List Char) (i : Nat) :
    ∀ j, tokenStart t i ≤ j → j < i → isPySpace (t.getD j '\x00') = false := by
  induction i with
  | zero => intro j _ h; omega
  | succ k ih =>
    intro j hj1 hj2
    rw [tokenStart] at hj1
    by_cases hk : isPySpace (t.getD k '\x00') = true
    · rw [if_pos hk] at hj1; omega
    · rw [if_neg hk] at hj1
      by_cases hjk : j = k
      · subst hjk
        simp only [Bool.not_eq_true] at hk
        exact hk
      · exact ih j hj1 (by omega)

theorem tokenStart_unique (t : List Char) (i k : Nat)
    (h1 : k ≤ i) (h2 : k = 0 ∨ isPySpace (t.getD (k - 1) '\x00') = true)
    (h3 : ∀ j, k ≤ j → j < i → isPySpace (t.getD j '\x00') = false) :
    k = tokenStart t i := by
  rcases lt_trichotomy k (tokenStart t i) with h | h | h
  · rcases tokenStart_left t i with h0 | hsp
    · omega
    · have hts := tokenStart_le t i
      have hns := h3 (tokenStart t i - 1) (by omega) (by omega)
      rw [hns] at hsp; exact Bool.noConfusion hsp
  · exact h
  · rcases h2 with h0 | hsp
    · omega
    · have hns := tokenStart_no_space t i (k - 1) (by omega) (by omega)
      rw [hns] at hsp; exact Bool.noConfusion hsp

theorem looks_like_abbreviation_iff (t : List Char) (i : Nat) (hi : i < t.length)
    (hc : t.getD i '\x00' = '.') :
    (_looks_like_abbreviation t (i : Int) = true ↔ abbrevAt t i) := by
  unfold _looks_like_abbreviation
  rw [pyCharAt_natCast, hc, if_neg (by simp; omega)]
  simp only [Int.toNat_natCast]
  constructor
  · intro h
    exact ⟨tokenStart t i, tokenStart_le t i, tokenStart_left t i,
      tokenStart_no_space t i, by simpa using h⟩
  · rintro ⟨k, hk1, hk2, hk3, hmem⟩
    rw [tokenStart_unique t i k hk1 hk2 hk3] at hmem
    simpa using hmem

theorem is_decimal_point_iff (t : List Char) (i : Nat) (hi : i < t.length)
    (hc : t.getD i '\x00' = '.') :
    (_is_decimal_point t (i : Int) = true ↔ decimalAt t i) := by
  unfold _is_decimal_point
  rw [pyCharAt_natCast, hc, if_neg (by simp; omega)]
  by_cases h1 : 1 ≤ i
  · have e1 : (i : Int) - 1 = ((i - 1 : Nat) : Int) := by omega
    have e2 : (i : Int) + 1 = ((i + 1 : Nat) : Int) := by omega
    rw [e1, e2, pyCharAt_natCast, pyCharAt_natCast]
    simp only [decimalAt, Bool.and_eq_true, decide_eq_true_eq]
    constructor
    · rintro ⟨⟨_, hd1⟩, hlt, hd2⟩
      exact ⟨h1, hd1, by exact_mod_cast hlt, hd2⟩
    · rintro ⟨_, hd1, hlt, hd2⟩
      exact ⟨⟨by omega, hd1⟩, by exact_mod_cast hlt, hd2⟩
  · have : i = 0 := by omega
    subst this
    simp [decimalAt]

/-- C6: a position `i < len(text)` is a hard break exactly when its character is
`. ! ?` — except a `.` that is a decimal point (digit before and after) or whose
backward-scanned, lowercased token is a known abbreviation — or when it is the
second newline of a double newline; in particular the `.` after `art` in
`"Nos termos do art. 5º da CF, ..."` and the `.` between `9` and `7` in
`"R$ 9.784,00"` are not hard breaks. -/
theorem hard_break_characterization :
    (∀ (t : List Char) (i : Nat), i < t.length →
      (_is_hard_break t (i : Int) = true ↔ specHardBreak t i)) ∧
    _is_hard_break ("Nos termos do art. 5º da CF, ...".data) 17 = false ∧
    _is_hard_break ("R$ 9.784,00".data) 4 = false := by
  refine ⟨?_, by decide, by decide⟩
  intro t i hi
  have hpc := pyCharAt_natCast t i
  unfold _is_hard_break
  rw [hpc]
  by_cases hdot : t.getD i '\x00' = '.'
  · rw [if_pos (by simp only [Bool.or_eq_true, decide_eq_true_eq]; exact Or.inl (Or.inl hdot))]
    have hdec := is_decimal_point_iff t i hi hdot
    have habb := looks_like_abbreviation_iff t i hi hdot
    cases hx : (_is_decimal_point t (i : Int) || _looks_like_abbreviation t (i : Int)) with
    | true =>
      rw [if_pos (by rw [hdot]; simp)]
      refine ⟨fun h => Bool.noConfusion h, fun hs => absurd hs ?_⟩
      intro hs
      simp only [specHardBreak] at hs
      rcases hs with ⟨_, hno⟩ | ⟨hn, _, _⟩
      · simp only [Bool.or_eq_true] at hx
        rcases hx with hx | hx
        · exact hno ⟨hdot, Or.inl (hdec.mp hx)⟩
        · exact hno ⟨hdot, Or.inr (habb.mp hx)⟩
      · rw [hdot] at hn
        exact absurd hn (by decide)
    | false =>
      rw [if_neg (by rw [hdot]; simp)]
      refine ⟨fun _ => ?_, fun _ => rfl⟩
      simp only [specHardBreak]
      left
      refine ⟨Or.inl hdot, ?_⟩
      rintro ⟨_, hdm | ham⟩
      · have hb := hdec.mpr hdm
        rw [hb] at hx
        simp at hx
      · have hb := habb.mpr ham
        rw [hb] at hx
        simp at hx
  · by_cases hpq : t.getD i '\x00' = '!' ∨ t.getD i '\x00' = '?'
    · rw [if_pos (by
        simp only [Bool.or_eq_true, decide_eq_true_eq]
        rcases hpq with h | h
        · exact Or.inl (Or.inr h)
        · exact Or.inr h)]
      rw [if_neg (by
        simp only [Bool.and_eq_true, decide_eq_true_eq]
        rintro ⟨hd, _⟩
        exact hdot hd)]
      refine ⟨fun _ => ?_, fun _ => rfl⟩
      simp only [specHardBreak]
      left
      exact ⟨Or.inr hpq, fun h => hdot h.1⟩
    · rw [if_neg (by
        simp only [Bool.or_eq_true, decide_eq_true_eq]
        rintro ((hd | h) | h)
        · exact hdot hd
        · exact hpq (Or.inl h)
        · exact hpq (Or.inr h))]
      by_cases hnl : t.getD i '\x00' = '\n'
      · by_cases h1 : 1 ≤ i
        · have e1 : (i : Int) - 1 = ((i - 1 : Nat) : Int) := by omega
          rw [e1, pyCharAt_natCast]
          by_cases hprev : t.getD (i - 1) '\x00' = '\n'
          · rw [if_pos (by
              simp only [Bool.and_eq_true, decide_eq_true_eq]
              exact ⟨⟨hnl, by omega⟩, hprev⟩)]
            refine ⟨fun _ => ?_, fun _ => rfl⟩
            simp only [specHardBreak]
            right
            exact ⟨hnl, h1, hprev⟩
          · rw [if_neg (by
              simp only [Bool.and_eq_true, decide_eq_true_eq]
              rintro ⟨_, hP⟩
              exact hprev hP)]
            refine ⟨fun h => Bool.noConfusion h, fun hs => absurd hs ?_⟩
            intro hs
            simp only [specHardBreak] at hs
            rcases hs with ⟨hp, _⟩ | ⟨_, _, hpv⟩
            · rcases hp with h | h | h
              · exact hdot h
              · exact hpq (Or.inl h)
              · exact hpq (Or.inr h)
            · exact hprev hpv
        · have hz : i = 0 := by omega
          subst hz
          rw [if_neg (by
            simp only [Bool.and_eq_true, decide_eq_true_eq]
            rintro ⟨⟨_, hone⟩, _⟩
            omega)]
          refine ⟨fun h => Bool.noConfusion h, fun hs => absurd hs ?_⟩
          intro hs
          simp only [specHardBreak] at hs
          rcases hs with ⟨hp, _⟩ | ⟨_, hone, _⟩
          · rcases hp with h | h | h
            · exact hdot h
            · exact hpq (Or.inl h)
            · exact hpq (Or.inr h)
          · omega
      · rw [if_neg (by
          simp only [Bool.and_eq_true, decide_eq_true_eq]
          rintro ⟨⟨hN, _⟩, _⟩
          exact hnl hN)]
        refine ⟨fun h => Bool.noConfusion h, fun hs => absurd hs ?_⟩
        intro hs
        simp only [specHardBreak] at hs
        rcases hs with ⟨hp, _⟩ | ⟨hN, _, _⟩
        · rcases hp with h | h | h
          · exact hdot h
          · exact hpq (Or.inl h)
          · exact hpq (Or.inr h)
        · exact hnl hN

/-- Witness for C6's characterization at a concrete true hard break. -/
theorem hard_break_characterization_witness :
    _is_hard_break ("Fim. Ok".data) 3 = true ↔ specHardBreak ("Fim. Ok".data) 3 :=
  hard_break_characterization.1 ("Fim. Ok".data) 3 (by decide)

/-! ## C7: `choose_split_without_overlap` against the spec's description -/

/-- `[lo, hi)` as a list of integers. -/
def intRange (lo hi : Int) : List Int :=
  (List.range (hi - lo).toNat).map fun k : Nat => lo + (k : Int)

/-- The last element of `l` satisfying `p`. -/
def lastOf (l : List Int) (p : Int → Bool) : Option Int := l.reverse.find? p

/-- Spec-side split chooser, from the spec's words (amended: *first* soft
break): the position right after the last hard break in the scanned segment;
else right after the first soft break; else the whitespace position nearest
below the midpoint; else `right_max`. -/
def chooseSplitSpec (t : List Char) (left_min right_max : Int) : Int :=
  let lm := max 0 left_min
  let rm := max lm right_max
  let scan := intRange lm (min rm (t.length : Int))
  match lastOf scan (fun i => _is_hard_break t i) with
  | some h => h + 1
  | none =>
    match scan.find? (fun i => _is_soft_break t i) with
    | some s => s + 1
    | none =>
      let mid := (lm + rm) / 2
      match lastOf (intRange (lm + 1) (mid + 1)) (fun j => isPySpace (pyCharAt t j)) with
      | some j => j
      | none => rm

theorem intRange_eq_nil {lo hi : Int} (h : hi ≤ lo) : intRange lo hi = [] := by
  unfold intRange
  have h0 : (hi - lo).toNat = 0 := by omega
  rw [h0]
  rfl

theorem intRange_cons {lo hi : Int} (h : lo < hi) :
    intRange lo hi = lo :: intRange (lo + 1) hi := by
  unfold intRange
  have h1 : (hi - lo).toNat = (hi - (lo + 1)).toNat + 1 := by omega
  rw [h1, List.range_succ_eq_map, List.map_cons, List.map_map]
  have h2 : ((fun k : Nat => lo + (k : Int)) ∘ Nat.succ) = fun k : Nat => (lo + 1) + (k : Int) := by
    funext k
    simp only [Function.comp_apply]
    push_cast
    ring
  rw [h2]
  simp

theorem intRange_concat {lo hi : Int} (h : lo < hi) :
    intRange lo hi = intRange lo (hi - 1) ++ [hi - 1] := by
  unfold intRange
  have h1 : (hi - lo).toNat = (hi - 1 - lo).toNat + 1 := by omega
  rw [h1, List.range_succ, List.map_append, List.map_cons, List.map_nil]
  congr 2
  omega

theorem mem_intRange {x lo hi : Int} : x ∈ intRange lo hi ↔ lo ≤ x ∧ x < hi := by
  unfold intRange
  simp only [List.mem_map, List.mem_range]
  constructor
  · rintro ⟨k, hk, rfl⟩
    omega
  · rintro ⟨h1, h2⟩
    exact ⟨(x - lo).toNat, by omega, by omega⟩

theorem find?_congr_local {α : Type} {p q : α → Bool} :
    ∀ l : List α, (∀ x ∈ l, p x = q x) → l.find? p = l.find? q := by
  intro l
  induction l with
  | nil => intro _; rfl
  | cons a l ih =>
    intro h
    simp only [List.find?_cons]
    rw [h a (List.mem_cons_self a l)]
    cases q a
    · exact ih fun x hx => h x (List.mem_cons_of_mem a hx)
    · rfl

/-- The forward pass tracks exactly the last hard break of the scanned range. -/
theorem splitScan_fst (t : List Char) :
    ∀ (fuel : Nat) (i : Int) (bh bs : Option Int),
      (splitScan t fuel i bh bs).1 =
        ((lastOf (intRange i (i + (fuel : Int))) fun j => _is_hard_break t j).map (· + 1)).or bh := by
  intro fuel
  induction fuel with
  | zero =>
    intro i bh bs
    rw [splitScan, intRange_eq_nil (by omega)]
    simp [lastOf]
  | succ fuel ih =>
    intro i bh bs
    have hrange : intRange i (i + ((fuel + 1 : Nat) : Int)) =
        i :: intRange (i + 1) ((i + 1) + (fuel : Int)) := by
      rw [show i + ((fuel + 1 : Nat) : Int) = (i + 1) + (fuel : Int) by push_cast; ring]
      rw [intRange_cons (by omega)]
    rw [splitScan, hrange]
    unfold lastOf
    rw [show (i :: intRange (i + 1) ((i + 1) + (fuel : Int))).reverse =
        (intRange (i + 1) ((i + 1) + (fuel : Int))).reverse ++ [i] by simp,
      List.find?_append]
    by_cases hh : _is_hard_break t i = true
    · rw [if_pos hh, ih]
      unfold lastOf
      cases hfind : (intRange (i + 1) ((i + 1) + (fuel : Int))).reverse.find?
          (fun j => _is_hard_break t j) with
      | some h => simp [hfind]
      | none => simp [hfind, List.find?, hh]
    · rw [if_neg hh, ih]
      unfold lastOf
      have : List.find? (fun j => _is_hard_break t j) [i] = none := by
        simp [List.find?, hh]
      rw [this, Option.or_none]

/-- The forward pass tracks the first soft break among non-hard positions. -/
theorem splitScan_snd (t : List Char) :
    ∀ (fuel : Nat) (i : Int) (bh bs : Option Int),
      (splitScan t fuel i bh bs).2 =
        bs.or (((intRange i (i + (fuel : Int))).find?
          (fun j => !_is_hard_break t j && _is_soft_break t j)).map (· + 1)) := by
  intro fuel
  induction fuel with
  | zero =>
    intro i bh bs
    rw [splitScan, intRange_eq_nil (by omega)]
    simp
  | succ fuel ih =>
    intro i bh bs
    have hrange : intRange i (i + ((fuel + 1 : Nat) : Int)) =
        i :: intRange (i + 1) ((i + 1) + (fuel : Int)) := by
      rw [show i + ((fuel + 1 : Nat) : Int) = (i + 1) + (fuel : Int) by push_cast; ring]
      rw [intRange_cons (by omega)]
    rw [splitScan, hrange]
    by_cases hh : _is_hard_break t i = true
    · rw [if_pos hh, ih, List.find?_cons]
      simp [hh]
    · rw [if_neg hh, ih, List.find?_cons]
      have hh' : _is_hard_break t i = false := by simpa using hh
      cases bs with
      | some b => simp [Option.or]
      | none =>
        cases hsoft : _is_soft_break t i with
        | true => simp [hh', hsoft, Option.or]
        | false => simp [hh', hsoft, Option.or]

/-- The fallback scan finds the last whitespace in `(left_min, j]`. -/
theorem wsSearch_eq (t : List Char) (lm : Int) :
    ∀ (fuel : Nat) (j : Int), fuel = (j - lm).toNat →
      wsSearch t lm fuel j =
        lastOf (intRange (lm + 1) (j + 1)) fun x => isPySpace (pyCharAt t x) := by
  intro fuel
  induction fuel with
  | zero =>
    intro j hj
    rw [wsSearch, intRange_eq_nil (by omega)]
    rfl
  | succ fuel ih =>
    intro j hj
    rw [wsSearch, if_neg (by omega)]
    have hconc : intRange (lm + 1) (j + 1) = intRange (lm + 1) j ++ [j] := by
      have := @intRange_concat (lm + 1) (j + 1) (by omega)
      simpa using this
    rw [hconc]
    unfold lastOf
    rw [show (intRange (lm + 1) j ++ [j]).reverse = j :: (intRange (lm + 1) j).reverse by simp,
      List.find?_cons]
    cases hsp : isPySpace (pyCharAt t j) with
    | true => simp
    | false =>
      show wsSearch t lm fuel (j - 1) =
        List.find? (fun x => isPySpace (pyCharAt t x)) (intRange (lm + 1) j).reverse
      rw [ih (j - 1) (by omega)]
      unfold lastOf
      rw [show j - 1 + 1 = j by ring]

/-- C7 counterexample: on `"a;b;c"` over `[0,5)` there is no hard break, soft
breaks sit at 1 and 3, and the code returns 2 (right after the *first* soft
break), not 4 (right after the last), refuting the claim as stated. -/
theorem choose_split_first_soft_counterexample :
    choose_split_without_overlap ("a;b;c".data) 0 5 = 2 ∧
    _is_soft_break ("a;b;c".data) 3 = true ∧
    (∀ i ∈ intRange 0 5, _is_hard_break ("a;b;c".data) i = false) := by decide

/-- C7 (amended): for `left_min ≤ right_max ≤ len(text)` (the latter keeps the
source clear of the midpoint-scan `IndexError` it can hit beyond the text),
`choose_split_without_overlap` returns the position right after the last hard
break of the scanned segment; else right after the *first* soft break; else the
whitespace position nearest below the midpoint; else `right_max` — so a split
point always exists. -/
theorem choose_split_eq_spec (t : List Char) (a b : Int)
    (hab : a ≤ b) (hb : b ≤ (t.length : Int)) :
    choose_split_without_overlap t a b = chooseSplitSpec t a b := by
  have hn : (0 : Int) ≤ (t.length : Int) := by omega
  simp only [choose_split_without_overlap, chooseSplitSpec]
  rw [min_eq_left (show max (max 0 a) b ≤ (t.length : Int) by omega),
    min_eq_left (show max 0 a ≤ (t.length : Int) by omega)]
  rw [splitScan_fst, splitScan_snd]
  rw [show max 0 a + (((max (max 0 a) b - max 0 a).toNat : Nat) : Int) = max (max 0 a) b by omega]
  cases hlast : lastOf (intRange (max 0 a) (max (max 0 a) b)) (fun j => _is_hard_break t j) with
  | some h => simp [Option.or]
  | none =>
    simp only [Option.map_none', Option.or]
    have hnohard : ∀ x ∈ intRange (max 0 a) (max (max 0 a) b), ¬(_is_hard_break t x = true) := by
      intro x hx
      have := List.find?_eq_none.mp hlast x (by simpa using hx)
      simpa using this
    have hcong : (intRange (max 0 a) (max (max 0 a) b)).find?
        (fun j => !_is_hard_break t j && _is_soft_break t j) =
        (intRange (max 0 a) (max (max 0 a) b)).find? (fun j => _is_soft_break t j) := by
      apply find?_congr_local
      intro x hx
      have : _is_hard_break t x = false := by
        have := hnohard x hx
        simp only [Bool.not_eq_true] at this
        exact this
      rw [this]
      simp
    rw [hcong]
    cases hsoft : (intRange (max 0 a) (max (max 0 a) b)).find? (fun j => _is_soft_break t j) with
    | some s => simp [Option.or]
    | none =>
      simp only [Option.map_none', Option.or]
      rw [wsSearch_eq t (max 0 a) _ ((max 0 a + max (max 0 a) b) / 2) rfl]

/-- Witness for C7's amended theorem at a concrete input. -/
theorem choose_split_eq_spec_witness :
    choose_split_without_overlap ("ab. cd".data) 0 5 = chooseSplitSpec ("ab. cd".data) 0 5 :=
  choose_split_eq_spec ("ab. cd".data) 0 5 (by decide) (by decide)

/-! ## Well-formed spans and the shape of sentence-bounded windows -/

/-- The data-model invariant on spans: `0 ≤ start ≤ end ≤ len(text)`. -/
def wfSpan (t : List Char) (s e : Int) : Prop :=
  0 ≤ s ∧ s ≤ e ∧ e ≤ (t.length : Int)

/-- A suspect whose span is within text bounds. -/
def wfSuspect (t : List Char) (s : CitationSuspect) : Prop :=
  wfSpan t s.start s.«end»

theorem build_eq_of_wf (t : List Char) {s e : Int} (mc : Int) (mx : Option Int)
    (ll lr : Bool) (h : wfSpan t s e) :
    build_sentence_bounded_range t s e mc mx ll lr =
      (min (if ll then s else find_left_boundary t s mc mx) s,
       max (if lr then e else find_right_boundary t e mc mx) e) := by
  obtain ⟨h0, h1, h2⟩ := h
  rw [build_sentence_bounded_range]
  by_cases hn : t.length = 0
  · rw [if_pos hn]
    have hs : s = 0 := by omega
    have he : e = 0 := by omega
    subst hs
    subst he
    simp [find_left_boundary, find_right_boundary, hn]
  · have e1 : max 0 (min s (t.length : Int)) = s := by omega
    have e2 : max 0 (min e (t.length : Int)) = e := by omega
    have e3 : (if e < s then e else s) = s := if_neg (by omega)
    have e4 : (if e < s then s else e) = e := if_neg (by omega)
    rw [if_neg hn]
    simp only [e1, e2, e3, e4]

theorem build_bounds (t : List Char) {s e : Int} (mc : Int) (mx : Option Int)
    (ll lr : Bool) (h : wfSpan t s e) (hmc : 1 ≤ mc) (hmx : optNonneg mx) :
    (build_sentence_bounded_range t s e mc mx ll lr).1 ≤ s ∧
    e ≤ (build_sentence_bounded_range t s e mc mx ll lr).2 ∧
    0 ≤ (build_sentence_bounded_range t s e mc mx ll lr).1 ∧
    (build_sentence_bounded_range t s e mc mx ll lr).2 ≤ (t.length : Int) := by
  rw [build_eq_of_wf t mc mx ll lr h]
  obtain ⟨h0, h1, h2⟩ := h
  have hL := find_left_boundary_bounds t s mc mx hmc hmx
  have hR := find_right_boundary_bounds t e mc mx hmx
  cases ll <;> cases lr <;> simp <;> omega

theorem preliminary_window_eq (t : List Char) {s : CitationSuspect} (mc : Int)
    (mx : Option Int) (h : wfSuspect t s) :
    _preliminary_window t s mc mx =
      (min (find_left_boundary t s.start mc mx) s.start,
       max (find_right_boundary t s.«end» mc mx) s.«end») := by
  unfold _preliminary_window
  rw [build_eq_of_wf t mc mx false false h]
  simp

theorem preliminary_window_bounds (t : List Char) {s : CitationSuspect} (mc : Int)
    (mx : Option Int) (h : wfSuspect t s) :
    (_preliminary_window t s mc mx).1 ≤ s.start ∧
      s.«end» ≤ (_preliminary_window t s mc mx).2 := by
  rw [preliminary_window_eq t mc mx h]
  constructor
  · exact min_le_right _ _
  · exact le_max_right _ _

/-! ## Sort-key comparisons -/

theorem suspectLe_trans (a b c : CitationSuspect)
    (h1 : suspectLe a b = true) (h2 : suspectLe b c = true) : suspectLe a c = true := by
  simp only [suspectLe, Bool.or_eq_true, Bool.and_eq_true, decide_eq_true_eq] at *
  omega

theorem suspectLe_total (a b : CitationSuspect) :
    (suspectLe a b || suspectLe b a) = true := by
  simp only [suspectLe, Bool.or_eq_true, Bool.and_eq_true, decide_eq_true_eq]
  omega

theorem windowLe_trans (a b c : Int × Int × CitationSuspect)
    (h1 : windowLe a b = true) (h2 : windowLe b c = true) : windowLe a c = true := by
  simp only [windowLe, Bool.or_eq_true, Bool.and_eq_true, decide_eq_true_eq] at *
  omega

theorem windowLe_total (a b : Int × Int × CitationSuspect) :
    (windowLe a b || windowLe b a) = true := by
  simp only [windowLe, Bool.or_eq_true, Bool.and_eq_true, decide_eq_true_eq]
  omega

theorem mem_pyInsert {α : Type} (le : α → α → Bool) (a x : α) (l : List α) :
    x ∈ pyInsert le a l ↔ x = a ∨ x ∈ l := by
  induction l with
  | nil => simp [pyInsert]
  | cons b l ih =>
    rw [pyInsert]
    by_cases h : le a b = true
    · rw [if_pos h]
      simp [List.mem_cons]
    · rw [if_neg h]
      simp [List.mem_cons, ih]
      tauto

theorem pyInsert_perm {α : Type} (le : α → α → Bool) (a : α) (l : List α) :
    List.Perm (pyInsert le a l) (a :: l) := by
  induction l with
  | nil => exact List.Perm.refl _
  | cons b l ih =>
    rw [pyInsert]
    by_cases h : le a b = true
    · rw [if_pos h]
    · rw [if_neg h]
      exact (ih.cons b).trans (List.Perm.swap a b l)

theorem pySorted_perm {α : Type} (le : α → α → Bool) (l : List α) :
    List.Perm (pySorted le l) l := by
  induction l with
  | nil => exact List.Perm.refl _
  | cons a l ih => exact (pyInsert_perm le a _).trans (ih.cons a)

theorem pyInsert_pairwise {α : Type} {le : α → α → Bool}
    (htrans : ∀ a b c, le a b = true → le b c = true → le a c = true)
    (htotal : ∀ a b, (le a b || le b a) = true)
    {a : α} {l : List α} (hl : List.Pairwise (fun x y => le x y = true) l) :
    List.Pairwise (fun x y => le x y = true) (pyInsert le a l) := by
  induction l with
  | nil => simp [pyInsert]
  | cons b l ih =>
    rcases List.pairwise_cons.mp hl with ⟨hb, hl'⟩
    rw [pyInsert]
    by_cases h : le a b = true
    · rw [if_pos h]
      refine List.Pairwise.cons ?_ hl
      intro x hx
      rcases List.mem_cons.mp hx with rfl | hx'
      · exact h
      · exact htrans a b x h (hb x hx')
    · rw [if_neg h]
      refine List.Pairwise.cons ?_ (ih hl')
      intro x hx
      rcases (mem_pyInsert le a x l).mp hx with hxa | hx'
      · rw [hxa]
        have ht := htotal a b
        rw [Bool.or_eq_true] at ht
        rcases ht with h1 | h1
        · exact absurd h1 h
        · exact h1
      · exact hb x hx'

theorem pySorted_sorted {α : Type} {le : α → α → Bool}
    (htrans : ∀ a b c, le a b = true → le b c = true → le a c = true)
    (htotal : ∀ a b, (le a b || le b a) = true) (l : List α) :
    List.Pairwise (fun x y => le x y = true) (pySorted le l) := by
  induction l with
  | nil => exact List.Pairwise.nil
  | cons a l ih => exact pyInsert_pairwise htrans htotal ih

theorem windowLe_fst_le {a b : Int × Int × CitationSuspect}
    (h : windowLe a b = true) : a.1 ≤ b.1 := by
  simp only [windowLe, Bool.or_eq_true, Bool.and_eq_true, decide_eq_true_eq] at h
  omega

/-! ## Clustering invariants -/

instance : Inhabited _Cluster := ⟨{}⟩

/-- All member suspects of all clusters, in emission order. -/
def flatMembers (cls : List _Cluster) : List CitationSuspect :=
  (cls.map _Cluster.members).flatten

theorem flatMembers_nil : flatMembers [] = [] := rfl

theorem flatMembers_cons (x : _Cluster) (l : List _Cluster) :
    flatMembers (x :: l) = x.members ++ flatMembers l := by
  simp [flatMembers]

theorem flatMembers_append (l1 l2 : List _Cluster) :
    flatMembers (l1 ++ l2) = flatMembers l1 ++ flatMembers l2 := by
  simp [flatMembers]

theorem mem_flatMembers {m : CitationSuspect} {cls : List _Cluster} :
    m ∈ flatMembers cls ↔ ∃ cl ∈ cls, m ∈ cl.members := by
  simp [flatMembers]

/-- The construction invariant of `_build_clusters`: nonempty members, coverage
= union of member spans (attained on both sides), and the preliminary window
covering each member's preliminary window. -/
def ClusterCore (t : List Char) (mc : Int) (mx : Option Int) (cl : _Cluster) : Prop :=
  cl.members ≠ [] ∧
  (∀ m ∈ cl.members, cl.cov_start ≤ m.start ∧ m.«end» ≤ cl.cov_end ∧
    cl.prelim_left ≤ (_preliminary_window t m mc mx).1 ∧
    (_preliminary_window t m mc mx).2 ≤ cl.prelim_right) ∧
  (∃ m0 ∈ cl.members, m0.start = cl.cov_start) ∧
  (∃ m1 ∈ cl.members, m1.«end» = cl.cov_end)

theorem mkCluster_core (t : List Char) (mc : Int) (mx : Option Int)
    (w : Int × Int × CitationSuspect)
    (hw : (w.1, w.2.1) = _preliminary_window t w.2.2 mc mx) :
    ClusterCore t mc mx (mkCluster w) := by
  have h1 : w.1 = (_preliminary_window t w.2.2 mc mx).1 := by rw [← hw]
  have h2 : w.2.1 = (_preliminary_window t w.2.2 mc mx).2 := by rw [← hw]
  refine ⟨by simp [mkCluster], ?_, ⟨w.2.2, by simp [mkCluster]⟩, ⟨w.2.2, by simp [mkCluster]⟩⟩
  intro m hm
  simp only [mkCluster, List.mem_singleton] at hm
  subst hm
  simp only [mkCluster]
  exact ⟨le_refl _, le_refl _, le_of_eq h1, le_of_eq h2.symm⟩

theorem buildClustersRev_spec (t : List Char) (mc : Int) (mx : Option Int) :
    ∀ (ws : List (Int × Int × CitationSuspect)) (acc : List _Cluster),
      (∀ w ∈ ws, (w.1, w.2.1) = _preliminary_window t w.2.2 mc mx) →
      ws.Pairwise (fun a b => windowLe a b = true) →
      (∀ cl ∈ acc, ClusterCore t mc mx cl) →
      List.Chain' (fun b a => a.prelim_right < b.prelim_left) acc →
      (∀ w ∈ ws, ∀ cl ∈ acc.head?, cl.prelim_left ≤ w.1) →
      (∀ cl ∈ buildClustersRev ws acc, ClusterCore t mc mx cl) ∧
      List.Chain' (fun b a => a.prelim_right < b.prelim_left) (buildClustersRev ws acc) ∧
      flatMembers ((buildClustersRev ws acc).reverse) =
        flatMembers acc.reverse ++ ws.map (fun w => w.2.2) := by
  intro ws
  induction ws with
  | nil =>
    intro acc _ _ hacc hchain _
    exact ⟨hacc, hchain, by rw [buildClustersRev]; simp⟩
  | cons w ws ih =>
    intro acc hP hpair hacc hchain hlb
    have hPw : (w.1, w.2.1) = _preliminary_window t w.2.2 mc mx := hP w (by simp)
    have hP' : ∀ w' ∈ ws, (w'.1, w'.2.1) = _preliminary_window t w'.2.2 mc mx :=
      fun w' hw' => hP w' (by simp [hw'])
    have hpair' := (List.pairwise_cons.mp hpair).2
    have hwle : ∀ w' ∈ ws, w.1 ≤ w'.1 :=
      fun w' hw' => windowLe_fst_le ((List.pairwise_cons.mp hpair).1 w' hw')
    cases acc with
    | nil =>
      rw [buildClustersRev]
      have := ih [mkCluster w] hP' hpair'
        (by
          intro cl hcl
          simp only [List.mem_singleton] at hcl
          subst hcl
          exact mkCluster_core t mc mx w hPw)
        (by simp)
        (by
          intro w' hw' cl hcl
          simp only [List.head?_cons, Option.mem_def, Option.some.injEq] at hcl
          subst hcl
          simpa [mkCluster] using hwle w' hw')
      refine ⟨this.1, this.2.1, ?_⟩
      rw [this.2.2]
      simp [flatMembers_cons, flatMembers_nil, mkCluster]
    | cons last rest =>
      rw [buildClustersRev]
      by_cases hnew : last.prelim_right < w.1
      · rw [if_pos hnew]
        have := ih (mkCluster w :: last :: rest) hP' hpair'
          (by
            intro cl hcl
            rcases List.mem_cons.mp hcl with h | h
            · subst h; exact mkCluster_core t mc mx w hPw
            · exact hacc cl h)
          (by
            refine List.chain'_cons.mpr ⟨?_, hchain⟩
            simpa [mkCluster] using hnew)
          (by
            intro w' hw' cl hcl
            simp only [List.head?_cons, Option.mem_def, Option.some.injEq] at hcl
            subst hcl
            simpa [mkCluster] using hwle w' hw')
        refine ⟨this.1, this.2.1, ?_⟩
        rw [this.2.2]
        simp only [List.reverse_cons, flatMembers_append, flatMembers_cons, flatMembers_nil,
          List.map_cons]
        simp [mkCluster]
      · rw [if_neg hnew]
        set merged : _Cluster :=
          { last with
              members := last.members ++ [w.2.2],
              prelim_right := max last.prelim_right w.2.1,
              cov_start := min last.cov_start w.2.2.start,
              cov_end := max last.cov_end w.2.2.«end» } with hmerged
        have hlast_core := hacc last (by simp)
        obtain ⟨hne, hall, ⟨m0, hm0mem, hm0⟩, ⟨m1, hm1mem, hm1⟩⟩ := hlast_core
        have hlbw : last.prelim_left ≤ w.1 := hlb w (by simp) last (by simp)
        have hcore_merged : ClusterCore t mc mx merged := by
          refine ⟨by simp [hmerged], ?_, ?_, ?_⟩
          · intro m hm
            rcases List.mem_append.mp hm with h | h
            · have := hall m h
              simp only [hmerged]
              refine ⟨by omega, by omega, this.2.2.1, by
                have := this.2.2.2
                omega⟩
            · simp only [List.mem_singleton] at h
              subst h
              have h1 : w.1 = (_preliminary_window t w.2.2 mc mx).1 := by rw [← hPw]
              have h2 : w.2.1 = (_preliminary_window t w.2.2 mc mx).2 := by rw [← hPw]
              simp only [hmerged]
              refine ⟨min_le_right _ _, ?_, by omega, by omega⟩
              exact le_max_right _ _
          · by_cases hc : w.2.2.start ≤ last.cov_start
            · exact ⟨w.2.2, by simp [hmerged], by simp [hmerged]; omega⟩
            · exact ⟨m0, by simp [hmerged, hm0mem], by simp [hmerged]; omega⟩
          · by_cases hc : last.cov_end ≤ w.2.2.«end»
            · exact ⟨w.2.2, by simp [hmerged], by simp [hmerged]; omega⟩
            · exact ⟨m1, by simp [hmerged, hm1mem], by simp [hmerged]; omega⟩
        have := ih (merged :: rest) hP' hpair'
          (by
            intro cl hcl
            rcases List.mem_cons.mp hcl with h | h
            · subst h; exact hcore_merged
            · exact hacc cl (by simp [h]))
          (by
            rcases List.chain'_cons'.mp hchain with ⟨hhd, htl⟩
            refine List.chain'_cons'.mpr ⟨?_, htl⟩
            intro y hy
            have := hhd y hy
            simpa [hmerged] using this)
          (by
            intro w' hw' cl hcl
            simp only [List.head?_cons, Option.mem_def, Option.some.injEq] at hcl
            subst hcl
            have h1 := hwle w' hw'
            simp only [hmerged]
            omega)
        refine ⟨this.1, this.2.1, ?_⟩
        rw [this.2.2]
        simp only [List.reverse_cons, flatMembers_append, flatMembers_cons, flatMembers_nil,
          List.map_cons, hmerged]
        simp

theorem build_clusters_spec (t : List Char) (mc : Int) (mx : Option Int)
    (windows : List (Int × Int × CitationSuspect))
    (hP : ∀ w ∈ windows, (w.1, w.2.1) = _preliminary_window t w.2.2 mc mx) :
    (∀ cl ∈ _build_clusters windows, ClusterCore t mc mx cl) ∧
    List.Chain' (fun a b => a.prelim_right < b.prelim_left) (_build_clusters windows) ∧
    List.Perm (flatMembers (_build_clusters windows)) (windows.map fun w => w.2.2) := by
  have hperm := pySorted_perm windowLe windows
  have hsorted := pySorted_sorted windowLe_trans windowLe_total windows
  have hP' : ∀ w ∈ pySorted windowLe windows, (w.1, w.2.1) = _preliminary_window t w.2.2 mc mx :=
    fun w hw => hP w (hperm.mem_iff.mp hw)
  have main := buildClustersRev_spec t mc mx (pySorted windowLe windows) [] hP' hsorted
    (by simp) (by simp) (by simp)
  unfold _build_clusters
  refine ⟨?_, ?_, ?_⟩
  · intro cl hcl
    exact main.1 cl (List.mem_reverse.mp hcl)
  · rw [List.chain'_reverse]
    exact main.2.1
  · rw [main.2.2]
    simp only [List.reverse_nil, flatMembers_nil, List.nil_append]
    exact (hperm.map _)

/-! ## Representative choice -/

theorem foldlMin_mem :
    ∀ (xs : List CitationSuspect) (a : CitationSuspect),
      xs.foldl (fun acc m => if suspectKeyLt m acc then m else acc) a ∈ a :: xs := by
  intro xs
  induction xs with
  | nil => intro a; simp
  | cons x xs ih =>
    intro a
    rw [List.foldl_cons]
    by_cases hc : suspectKeyLt x a = true
    · rw [if_pos hc]
      exact List.mem_cons_of_mem a (ih x)
    · rw [if_neg hc]
      rcases List.mem_cons.mp (ih a) with h1 | h1
      · rw [h1]
        exact List.mem_cons_self a _
      · exact List.mem_cons_of_mem a (List.mem_cons_of_mem x h1)

theorem pyMin_mem {l : List CitationSuspect} {r : CitationSuspect}
    (h : pyMinByStartEnd l = some r) : r ∈ l := by
  cases l with
  | nil => cases h
  | cons x xs =>
    rw [pyMinByStartEnd] at h
    injection h with h'
    rw [← h']
    exact foldlMin_mem xs x

theorem choose_representative_spec (cl : _Cluster) (hne : cl.members ≠ []) :
    ∃ r, _choose_representative cl = some r ∧ r ∈ cl.members ∧
      ((∃ m ∈ cl.members, m.detector_type = DetectorType.linker) →
        r.detector_type = DetectorType.linker) := by
  unfold _choose_representative
  cases hl : cl.members.filter (fun m => decide (m.detector_type = DetectorType.linker)) with
  | nil =>
    cases hm : cl.members with
    | nil => exact absurd hm hne
    | cons x xs =>
      refine ⟨_, rfl, ?_, ?_⟩
      · exact foldlMin_mem xs x
      · rintro ⟨m, hmm, hml⟩
        have hmf : m ∈ (x :: xs).filter (fun m => decide (m.detector_type = DetectorType.linker)) :=
          List.mem_filter.mpr ⟨by rw [← hm] at hmm ⊢; exact hmm, by simp [hml]⟩
        rw [← hm, hl] at hmf
        cases hmf
  | cons y ys =>
    have hmem : ys.foldl (fun acc m => if suspectKeyLt m acc then m else acc) y ∈ y :: ys :=
      foldlMin_mem ys y
    rw [← hl] at hmem
    refine ⟨_, rfl, (List.mem_filter.mp hmem).1, fun _ => ?_⟩
    have := (List.mem_filter.mp hmem).2
    simpa using this

/-! ## Per-cluster window invariant after snippet computation -/

/-- The snippet/coverage/window ordering invariant a cluster carries once its
snippet range has been computed. -/
def clusterW (t : List Char) (cl : _Cluster) : Prop :=
  cl.prelim_left ≤ cl.snip_start ∧ cl.snip_start ≤ cl.cov_start ∧
  cl.cov_start ≤ cl.cov_end ∧ cl.cov_end ≤ cl.snip_end ∧
  cl.cov_end ≤ cl.prelim_right ∧ 0 ≤ cl.snip_start ∧ cl.snip_end ≤ (t.length : Int)

theorem compute_snippet_spec (t : List Char) (mc : Int) (mx : Option Int) (prefer : Bool)
    (cl : _Cluster) (hcore : ClusterCore t mc mx cl)
    (hwf : ∀ m ∈ cl.members, wfSuspect t m) (hmc : 1 ≤ mc) (hmx : optNonneg mx) :
    cl.prelim_left ≤ (_compute_cluster_snippet_range t cl mc mx prefer).1 ∧
    (_compute_cluster_snippet_range t cl mc mx prefer).1 ≤ cl.cov_start ∧
    cl.cov_end ≤ (_compute_cluster_snippet_range t cl mc mx prefer).2 ∧
    0 ≤ (_compute_cluster_snippet_range t cl mc mx prefer).1 ∧
    (_compute_cluster_snippet_range t cl mc mx prefer).2 ≤ (t.length : Int) ∧
    cl.cov_start ≤ cl.cov_end ∧ cl.cov_end ≤ cl.prelim_right := by
  obtain ⟨hne, hall, ⟨m0, hm0mem, hm0⟩, ⟨m1, hm1mem, hm1⟩⟩ := hcore
  have hwf0 := hwf m0 hm0mem
  have hwf1 := hwf m1 hm1mem
  have hm0e := (hall m0 hm0mem).2.1
  have hcc : cl.cov_start ≤ cl.cov_end := by
    have h1 := hwf0.2.1
    omega
  have hcpr : cl.cov_end ≤ cl.prelim_right := by
    have h1 := (hall m1 hm1mem).2.2.2
    have h2 := (preliminary_window_bounds t mc mx hwf1).2
    omega
  have hwfspan : wfSpan t cl.cov_start cl.cov_end := by
    refine ⟨?_, hcc, ?_⟩
    · have := hwf0.1
      omega
    · have := hwf1.2.2
      omega
  unfold _compute_cluster_snippet_range
  have hb := build_bounds t mc mx (prefer && _has_left_linker_anchor cl)
    (prefer && _has_right_linker_anchor cl) hwfspan hmc hmx
  refine ⟨?_, hb.1, hb.2.1, hb.2.2.1, hb.2.2.2, hcc, hcpr⟩
  rw [build_eq_of_wf t mc mx _ _ hwfspan]
  have hpl := (hall m0 hm0mem).2.2.1
  have hpw : (_preliminary_window t m0 mc mx).1 =
      min (find_left_boundary t m0.start mc mx) m0.start := by
    rw [preliminary_window_eq t mc mx hwf0]
  cases hlock : (prefer && _has_left_linker_anchor cl) with
  | true =>
    rw [if_pos rfl]
    simp only [min_self]
    omega
  | false =>
    rw [if_neg (by simp)]
    simp only []
    rw [← hm0]
    omega

/-! ## Stage lemmas for `deduplicate` -/

/-- Every member comes from the given suspect pool. -/
def MFrom (S : List CitationSuspect) (cl : _Cluster) : Prop :=
  ∀ m ∈ cl.members, m ∈ S

/-- The representative is set, belongs to the members, and is a linker suspect
whenever the cluster has one. -/
def RepLinked (cl : _Cluster) : Prop :=
  ∃ r, cl.rep = some r ∧ r ∈ cl.members ∧
    ((∃ m ∈ cl.members, m.detector_type = DetectorType.linker) →
      r.detector_type = DetectorType.linker)

/-- Coverage contains every member's span. -/
def CovMem (cl : _Cluster) : Prop :=
  ∀ m ∈ cl.members, cl.cov_start ≤ m.start ∧ m.«end» ≤ cl.cov_end

theorem dedupWindows_spec (t : List Char) (L R : List CitationSuspect)
    (mc : Int) (mx : Option Int) :
    (∀ w ∈ dedupWindows t L R mc mx, (w.1, w.2.1) = _preliminary_window t w.2.2 mc mx) ∧
    (dedupWindows t L R mc mx).map (fun w => w.2.2) =
      (dedupInputs L R).1 ++ (dedupInputs L R).2 := by
  constructor
  · intro w hw
    unfold dedupWindows at hw
    simp only [List.mem_map] at hw
    obtain ⟨s, _, rfl⟩ := hw
    simp
  · unfold dedupWindows
    rw [List.map_map]
    simp [Function.comp_def]

theorem dedupInputs_mem {L R : List CitationSuspect} {s : CitationSuspect}
    (h : s ∈ (dedupInputs L R).1 ++ (dedupInputs L R).2) :
    s ∈ L ∨ (s ∈ R ∧ ∀ l ∈ L, _overlaps (s.start, s.«end») (l.start, l.«end») = false) := by
  unfold dedupInputs at h
  simp only [List.mem_append] at h
  rcases h with h | h
  · exact Or.inl ((pySorted_perm suspectLe L).mem_iff.mp h)
  · right
    unfold _filter_regex_overlapping_linker at h
    have hm := List.mem_filter.mp h
    refine ⟨(pySorted_perm suspectLe R).mem_iff.mp hm.1, ?_⟩
    intro l hl
    have hpred := hm.2
    simp only [Bool.not_eq_true', List.any_eq_false] at hpred
    have h2 := hpred _
      (List.mem_map.mpr ⟨l, (pySorted_perm suspectLe L).mem_iff.mpr hl, rfl⟩)
    simpa using h2

theorem dedupInputs_linker_mem {L R : List CitationSuspect} {l : CitationSuspect}
    (h : l ∈ L) : l ∈ (dedupInputs L R).1 :=
  (pySorted_perm suspectLe L).mem_iff.mpr h

theorem dedupClustersGrouped_spec (t : List Char) (L R : List CitationSuspect)
    (mc : Int) (mx : Option Int) :
    (∀ cl ∈ dedupClustersGrouped t L R mc mx, ClusterCore t mc mx cl) ∧
    List.Chain' (fun a b => a.prelim_right < b.prelim_left)
      (dedupClustersGrouped t L R mc mx) ∧
    List.Perm (flatMembers (dedupClustersGrouped t L R mc mx))
      ((dedupInputs L R).1 ++ (dedupInputs L R).2) := by
  have hw := dedupWindows_spec t L R mc mx
  have hmain := build_clusters_spec t mc mx (dedupWindows t L R mc mx) hw.1
  exact ⟨hmain.1, hmain.2.1, by rw [← hw.2]; exact hmain.2.2⟩

theorem flatMembers_map {f : _Cluster → _Cluster}
    (hf : ∀ cl, (f cl).members = cl.members) (l : List _Cluster) :
    flatMembers (l.map f) = flatMembers l := by
  induction l with
  | nil => rfl
  | cons x l ih =>
    rw [List.map_cons, flatMembers_cons, flatMembers_cons, hf, ih]

/-- Everything that holds of the cluster list after step 4 of `deduplicate`. -/
theorem dedupClustersSnipped_spec (t : List Char) (L R : List CitationSuspect)
    (mc : Int) (mx : Option Int) (prefer : Bool)
    (hwf : ∀ s ∈ L ++ R, wfSuspect t s) (hmc : 1 ≤ mc) (hmx : optNonneg mx) :
    (∀ cl ∈ dedupClustersSnipped t L R mc mx prefer, clusterW t cl) ∧
    List.Chain' (fun a b => a.prelim_right < b.prelim_left)
      (dedupClustersSnipped t L R mc mx prefer) := by
  obtain ⟨hcore, hchain, hflat⟩ := dedupClustersGrouped_spec t L R mc mx
  have hwfm : ∀ cl ∈ dedupClustersGrouped t L R mc mx, ∀ m ∈ cl.members, wfSuspect t m := by
    intro cl hcl m hm
    have : m ∈ flatMembers (dedupClustersGrouped t L R mc mx) :=
      mem_flatMembers.mpr ⟨cl, hcl, hm⟩
    have hmem := hflat.mem_iff.mp this
    rcases dedupInputs_mem hmem with h | h
    · exact hwf m (List.mem_append.mpr (Or.inl h))
    · exact hwf m (List.mem_append.mpr (Or.inr h.1))
  constructor
  · intro cl' hcl'
    unfold dedupClustersSnipped at hcl'
    simp only [List.mem_map] at hcl'
    obtain ⟨cl, hcl, rfl⟩ := hcl'
    have hs := compute_snippet_spec t mc mx prefer cl (hcore cl hcl) (hwfm cl hcl) hmc hmx
    exact ⟨hs.1, hs.2.1, hs.2.2.2.2.2.1, hs.2.2.1, hs.2.2.2.2.2.2, hs.2.2.2.1, hs.2.2.2.2.1⟩
  · unfold dedupClustersSnipped
    rw [List.chain'_map]
    exact hchain

/-- Members, representative linkage and flat membership after step 4. -/
theorem dedupClustersSnipped_members (t : List Char) (L R : List CitationSuspect)
    (mc : Int) (mx : Option Int) (prefer : Bool) :
    (∀ cl ∈ dedupClustersSnipped t L R mc mx prefer, RepLinked cl ∧ CovMem cl) ∧
    flatMembers (dedupClustersSnipped t L R mc mx prefer) =
      flatMembers (dedupClustersGrouped t L R mc mx) := by
  obtain ⟨hcore, _, _⟩ := dedupClustersGrouped_spec t L R mc mx
  constructor
  · intro cl' hcl'
    unfold dedupClustersSnipped at hcl'
    simp only [List.mem_map] at hcl'
    obtain ⟨cl, hcl, rfl⟩ := hcl'
    obtain ⟨hne, hall, _, _⟩ := hcore cl hcl
    constructor
    · obtain ⟨r, hr, hrm, hrl⟩ := choose_representative_spec cl hne
      exact ⟨r, by simpa using hr, hrm, hrl⟩
    · intro m hm
      have := hall m hm
      exact ⟨this.1, this.2.1⟩
  · unfold dedupClustersSnipped
    apply flatMembers_map
    intro cl
    rfl

/-! ## Reconciliation helpers -/

/-- The only change reconciliation makes to a cluster (outside merges): its
`snip_end` may move down, but never below its own coverage end; every other
field is untouched. -/
def TrimRel (a b : _Cluster) : Prop :=
  b.members = a.members ∧ b.prelim_left = a.prelim_left ∧ b.prelim_right = a.prelim_right ∧
  b.cov_start = a.cov_start ∧ b.cov_end = a.cov_end ∧ b.snip_start = a.snip_start ∧
  b.rep = a.rep ∧ a.cov_end ≤ b.snip_end ∧ b.snip_end ≤ a.snip_end

theorem TrimRel_refl_of_W {t : List Char} {cl : _Cluster} (h : clusterW t cl) :
    TrimRel cl cl :=
  ⟨rfl, rfl, rfl, rfl, rfl, rfl, rfl, h.2.2.2.1, le_refl _⟩

theorem TrimRel_trans {a b c : _Cluster} (h1 : TrimRel a b) (h2 : TrimRel b c) :
    TrimRel a c := by
  obtain ⟨m1, p1, q1, cs1, ce1, ss1, r1, l1, u1⟩ := h1
  obtain ⟨m2, p2, q2, cs2, ce2, ss2, r2, l2, u2⟩ := h2
  refine ⟨m2.trans m1, p2.trans p1, q2.trans q1, cs2.trans cs1, ce2.trans ce1,
    ss2.trans ss1, r2.trans r1, by omega, by omega⟩

theorem forall₂_trimrel_trans :
    ∀ {l1 l2 l3 : List _Cluster}, List.Forall₂ TrimRel l1 l2 →
      List.Forall₂ TrimRel l2 l3 → List.Forall₂ TrimRel l1 l3 := by
  intro l1
  induction l1 with
  | nil =>
    intro l2 l3 h1 h2
    cases h1
    cases h2
    exact List.Forall₂.nil
  | cons a l ih =>
    intro l2 l3 h1 h2
    cases h1 with
    | cons hab h1' =>
      cases h2 with
      | cons hbc h2' => exact List.Forall₂.cons (TrimRel_trans hab hbc) (ih h1' h2')

theorem getD_mem_of_lt {l : List _Cluster} {i : Nat} (h : i < l.length) :
    l.getD i {} ∈ l := by
  rw [List.getD_eq_getElem l {} h]
  exact List.getElem_mem h

theorem mem_set_cases {α : Type} :
    ∀ (l : List α) (k : Nat) (x y : α), y ∈ l.set k x → y = x ∨ y ∈ l := by
  intro l
  induction l with
  | nil =>
    intro k x y h
    simp at h
  | cons a l ih =>
    intro k x y h
    cases k with
    | zero =>
      rw [List.set_cons_zero] at h
      rcases List.mem_cons.mp h with h1 | h1
      · exact Or.inl h1
      · exact Or.inr (List.mem_cons_of_mem a h1)
    | succ k =>
      rw [List.set_cons_succ] at h
      rcases List.mem_cons.mp h with h1 | h1
      · exact Or.inr (by rw [h1]; exact List.mem_cons_self a l)
      · rcases ih k x y h1 with h2 | h2
        · exact Or.inl h2
        · exact Or.inr (List.mem_cons_of_mem a h2)

theorem list_decomp {l : List _Cluster} {i : Nat} (h1 : 1 ≤ i) (h2 : i < l.length) :
    l = l.take (i - 1) ++ l.getD (i - 1) {} :: l.getD i {} :: l.drop (i + 1) := by
  have hi1 : i - 1 < l.length := by omega
  rw [List.getD_eq_getElem l {} hi1, List.getD_eq_getElem l {} h2]
  conv_lhs => rw [← List.take_append_drop (i - 1) l]
  congr 1
  rw [List.drop_eq_getElem_cons hi1]
  congr 1
  rw [show i - 1 + 1 = i by omega]
  exact List.drop_eq_getElem_cons h2

theorem flatMembers_set (l : List _Cluster) (k : Nat) (x : _Cluster)
    (hk : k < l.length) (hx : x.members = (l.getD k {}).members) :
    flatMembers (l.set k x) = flatMembers l := by
  rw [List.set_eq_take_append_cons_drop, if_pos hk]
  conv_rhs => rw [← List.take_append_drop k l]
  rw [flatMembers_append, flatMembers_append, flatMembers_cons,
    List.drop_eq_getElem_cons hk, flatMembers_cons, hx, List.getD_eq_getElem l {} hk]

theorem flatMembers_splice (l : List _Cluster) (i : Nat) (x : _Cluster)
    (h1 : 1 ≤ i) (h2 : i < l.length)
    (hx : x.members = (l.getD (i - 1) {}).members ++ (l.getD i {}).members) :
    flatMembers (l.take (i - 1) ++ x :: l.drop (i + 1)) = flatMembers l := by
  conv_rhs => rw [list_decomp h1 h2]
  rw [flatMembers_append, flatMembers_append, flatMembers_cons, flatMembers_cons,
    flatMembers_cons, hx]
  simp [List.append_assoc]

theorem splice_length (l : List _Cluster) (i : Nat) (x : _Cluster)
    (h1 : 1 ≤ i) (h2 : i < l.length) :
    (l.take (i - 1) ++ x :: l.drop (i + 1)).length = l.length - 1 := by
  simp only [List.length_append, List.length_take, List.length_cons, List.length_drop]
  omega

theorem getD_set (l : List _Cluster) (m n : Nat) (x : _Cluster) (hn : n < l.length) :
    (l.set m x).getD n {} = if m = n then x else l.getD n {} := by
  rw [List.getD_eq_getElem _ _ (by rwa [List.length_set]), List.getElem_set]
  by_cases h : m = n
  · rw [if_pos h, if_pos h]
  · rw [if_neg h, if_neg h, List.getD_eq_getElem l {} hn]

theorem chain'_get_edge {R : _Cluster → _Cluster → Prop} {cls : List _Cluster}
    (h : List.Chain' R cls) {k : Nat} (hk : k + 1 < cls.length) :
    R (cls.getD k {}) (cls.getD (k + 1) {}) := by
  rw [List.chain'_iff_get] at h
  have := h k (by omega)
  simp only [List.get_eq_getElem] at this
  rwa [List.getD_eq_getElem _ _ (by omega), List.getD_eq_getElem _ _ (by omega)]

theorem chain'_snip_of_pairs {cls : List _Cluster}
    (h : ∀ k : Nat, k + 1 < cls.length →
      (cls.getD k {}).snip_end ≤ (cls.getD (k + 1) {}).snip_start) :
    List.Chain' (fun a b => a.snip_end ≤ b.snip_start) cls := by
  rw [List.chain'_iff_get]
  intro k hk
  have := h k (by omega)
  simp only [List.get_eq_getElem]
  rwa [List.getD_eq_getElem _ _ (by omega), List.getD_eq_getElem _ _ (by omega)] at this

theorem set_getElem_self_local {α : Type} (l : List α) (n : Nat) (h : n < l.length) :
    l.set n (l.get ⟨n, h⟩) = l := by
  apply List.ext_getElem
  · simp
  · intro i h1 h2
    rw [List.getElem_set]
    by_cases hn : n = i
    · subst hn
      rw [if_pos rfl, List.get_eq_getElem]
    · rw [if_neg hn]

theorem chain'_prelim_set {cls : List _Cluster} {k : Nat} {x : _Cluster}
    (h : List.Chain' (fun a b : _Cluster => a.prelim_right < b.prelim_left) cls)
    (hk : k < cls.length)
    (hl : x.prelim_left = (cls.getD k {}).prelim_left)
    (hr : x.prelim_right = (cls.getD k {}).prelim_right) :
    List.Chain' (fun a b : _Cluster => a.prelim_right < b.prelim_left) (cls.set k x) := by
  rw [List.getD_eq_getElem cls {} hk] at hl hr
  have key : List.Chain' (fun p q : Int × Int => p.2 < q.1)
      (List.map (fun cl : _Cluster => (cl.prelim_left, cl.prelim_right)) (cls.set k x)) := by
    rw [List.map_set]
    have hx : ((x.prelim_left, x.prelim_right) : Int × Int) =
        (List.map (fun cl : _Cluster => (cl.prelim_left, cl.prelim_right)) cls).get
          ⟨k, by simpa using hk⟩ := by
      rw [List.get_eq_getElem, List.getElem_map]
      exact Prod.ext hl hr
    rw [hx, set_getElem_self_local]
    exact (List.chain'_map _).mpr h
  exact (List.chain'_map _).mp key

theorem forall₂_set_right (l : List _Cluster) (k : Nat) (x : _Cluster)
    (hrefl : ∀ cl ∈ l, TrimRel cl cl) (hx : TrimRel (l.getD k {}) x) :
    List.Forall₂ TrimRel l (l.set k x) := by
  induction l generalizing k with
  | nil => exact List.Forall₂.nil
  | cons a l ih =>
    cases k with
    | zero =>
      rw [List.set_cons_zero]
      exact List.Forall₂.cons (by simpa using hx)
        (List.forall₂_same.mpr fun y hy => hrefl y (List.mem_cons_of_mem a hy))
    | succ k =>
      rw [List.set_cons_succ]
      exact List.Forall₂.cons (hrefl a (by simp))
        (ih k (fun y hy => hrefl y (List.mem_cons_of_mem a hy)) (by simpa using hx))

/-! ## Reconciliation-loop facts -/

theorem choose_representative_congr (cl cl' : _Cluster) (h : cl.members = cl'.members) :
    _choose_representative cl = _choose_representative cl' := by
  unfold _choose_representative
  rw [h]

theorem RepLinked_mk (cl : _Cluster) (hne : cl.members ≠ [])
    (hr : cl.rep = _choose_representative cl) : RepLinked cl := by
  obtain ⟨r, hcr, hm, hl⟩ := choose_representative_spec cl hne
  exact ⟨r, by rw [hr, hcr], hm, hl⟩

theorem reconGo_pres (t : List Char) (mc : Int) (mx : Option Int) (prefer : Bool)
    (S : List CitationSuspect) :
    ∀ (fuel : Nat) (cls : List _Cluster) (i : Nat),
      (∀ cl ∈ cls, MFrom S cl ∧ RepLinked cl ∧ CovMem cl) →
      ∀ cl ∈ reconGo t mc mx prefer fuel cls i, MFrom S cl ∧ RepLinked cl ∧ CovMem cl := by
  intro fuel
  induction fuel with
  | zero =>
    intro cls i h cl hcl
    rw [reconGo] at hcl
    exact h cl hcl
  | succ fuel ih =>
    intro cls i h cl hcl
    rw [reconGo] at hcl
    by_cases hlen : i < cls.length
    · rw [if_pos hlen] at hcl
      simp only [] at hcl
      by_cases h1 : (cls.getD (i - 1) {}).snip_end ≤ (cls.getD i {}).snip_start
      · rw [if_pos h1] at hcl
        exact ih cls (i + 1) h cl hcl
      · rw [if_neg h1] at hcl
        by_cases h2 : (cls.getD i {}).cov_start < (cls.getD (i - 1) {}).cov_end
        · rw [if_pos h2] at hcl
          refine ih _ i ?_ cl hcl
          intro cl' hcl'
          have hprev := h _ (getD_mem_of_lt (show i - 1 < cls.length by omega))
          have hcurr := h _ (getD_mem_of_lt hlen)
          rcases List.mem_append.mp hcl' with h' | h'
          · exact h cl' (List.mem_of_mem_take h')
          · rcases List.mem_cons.mp h' with h' | h'
            · subst h'
              refine ⟨?_, ?_, ?_⟩
              · intro m hm
                rcases List.mem_append.mp hm with hm | hm
                · exact hprev.1 m hm
                · exact hcurr.1 m hm
              · refine RepLinked_mk _ ?_ (choose_representative_congr _ _ rfl)
                show (cls.getD (i - 1) {}).members ++ (cls.getD i {}).members ≠ []
                intro hcon
                rw [List.append_eq_nil] at hcon
                obtain ⟨r0, _, hr0m, _⟩ := hprev.2.1
                rw [hcon.1] at hr0m
                cases hr0m
              · intro m hm
                rcases List.mem_append.mp hm with hm | hm
                · have := hprev.2.2 m hm
                  constructor <;> [exact le_trans (min_le_left _ _) this.1;
                    exact le_trans this.2 (le_max_left _ _)]
                · have := hcurr.2.2 m hm
                  constructor <;> [exact le_trans (min_le_right _ _) this.1;
                    exact le_trans this.2 (le_max_right _ _)]
            · exact h cl' (List.mem_of_mem_drop h')
        · rw [if_neg h2] at hcl
          refine ih _ (i + 1) ?_ cl hcl
          intro cl' hcl'
          rcases mem_set_cases _ _ _ _ hcl' with h' | h'
          · subst h'
            have hprev := h _ (getD_mem_of_lt (show i - 1 < cls.length by omega))
            exact ⟨hprev.1, hprev.2.1, hprev.2.2⟩
          · exact h cl' h'
    · rw [if_neg hlen] at hcl
      exact h cl hcl

theorem reconGo_flat (t : List Char) (mc : Int) (mx : Option Int) (prefer : Bool) :
    ∀ (fuel : Nat) (cls : List _Cluster) (i : Nat), 1 ≤ i →
      flatMembers (reconGo t mc mx prefer fuel cls i) = flatMembers cls := by
  intro fuel
  induction fuel with
  | zero =>
    intro cls i _
    rw [reconGo]
  | succ fuel ih =>
    intro cls i hi
    rw [reconGo]
    by_cases hlen : i < cls.length
    · rw [if_pos hlen]
      simp only []
      by_cases h1 : (cls.getD (i - 1) {}).snip_end ≤ (cls.getD i {}).snip_start
      · rw [if_pos h1]
        exact ih cls (i + 1) (by omega)
      · rw [if_neg h1]
        by_cases h2 : (cls.getD i {}).cov_start < (cls.getD (i - 1) {}).cov_end
        · rw [if_pos h2, ih _ i hi]
          exact flatMembers_splice cls i _ hi hlen rfl
        · rw [if_neg h2, ih _ (i + 1) (by omega)]
          exact flatMembers_set cls (i - 1) _ (by omega) rfl
    · rw [if_neg hlen]

theorem reconGo_length (t : List Char) (mc : Int) (mx : Option Int) (prefer : Bool) :
    ∀ (fuel : Nat) (cls : List _Cluster) (i : Nat), 1 ≤ i →
      (reconGo t mc mx prefer fuel cls i).length ≤ cls.length := by
  intro fuel
  induction fuel with
  | zero =>
    intro cls i _
    rw [reconGo]
  | succ fuel ih =>
    intro cls i hi
    rw [reconGo]
    by_cases hlen : i < cls.length
    · rw [if_pos hlen]
      simp only []
      by_cases h1 : (cls.getD (i - 1) {}).snip_end ≤ (cls.getD i {}).snip_start
      · rw [if_pos h1]
        exact ih cls (i + 1) (by omega)
      · rw [if_neg h1]
        by_cases h2 : (cls.getD i {}).cov_start < (cls.getD (i - 1) {}).cov_end
        · rw [if_pos h2]
          refine le_trans (ih _ i hi) ?_
          rw [splice_length cls i _ hi hlen]
          omega
        · rw [if_neg h2]
          exact le_trans (ih _ (i + 1) (by omega)) (le_of_eq (List.length_set _ _ _))
    · rw [if_neg hlen]

theorem reconGo_fuel_mono (t : List Char) (mc : Int) (mx : Option Int) (prefer : Bool) :
    ∀ (fuel : Nat) (cls : List _Cluster) (i : Nat) (extra : Nat),
      1 ≤ i → 2 * cls.length ≤ fuel + i →
      reconGo t mc mx prefer (fuel + extra) cls i = reconGo t mc mx prefer fuel cls i := by
  intro fuel
  induction fuel with
  | zero =>
    intro cls i extra hi hf
    cases extra with
    | zero => rfl
    | succ e =>
      rw [show 0 + (e + 1) = e + 1 by omega]
      rw [reconGo, reconGo]
      rw [if_neg (by omega)]
  | succ fuel ih =>
    intro cls i extra hi hf
    rw [show fuel + 1 + extra = (fuel + extra) + 1 by omega]
    rw [reconGo, reconGo]
    by_cases hlen : i < cls.length
    · rw [if_pos hlen, if_pos hlen]
      simp only []
      by_cases h1 : (cls.getD (i - 1) {}).snip_end ≤ (cls.getD i {}).snip_start
      · rw [if_pos h1, if_pos h1]
        exact ih cls (i + 1) extra (by omega) (by omega)
      · rw [if_neg h1, if_neg h1]
        by_cases h2 : (cls.getD i {}).cov_start < (cls.getD (i - 1) {}).cov_end
        · rw [if_pos h2, if_pos h2]
          refine ih _ i extra hi ?_
          rw [splice_length cls i _ hi hlen]
          omega
        · rw [if_neg h2, if_neg h2]
          refine ih _ (i + 1) extra (by omega) ?_
          rw [List.length_set]
          omega
    · rw [if_neg hlen, if_neg hlen]

/-- The reconciliation walk under the step-4 invariants: the coverage-overlap
merge branch is unreachable, every cluster keeps its window invariant, each
cluster changes only by trimming `snip_end` (never below coverage), and the
final snippet ranges form a non-overlapping chain. -/
theorem reconGo_trim_spec (t : List Char) (mc : Int) (mx : Option Int) (prefer : Bool) :
    ∀ (fuel : Nat) (cls : List _Cluster) (i : Nat),
      1 ≤ i →
      (∀ cl ∈ cls, clusterW t cl) →
      List.Chain' (fun a b : _Cluster => a.prelim_right < b.prelim_left) cls →
      (∀ k : Nat, k + 1 < i → k + 1 < cls.length →
        (cls.getD k {}).snip_end ≤ (cls.getD (k + 1) {}).snip_start) →
      2 * cls.length ≤ fuel + i →
      (∀ cl ∈ reconGo t mc mx prefer fuel cls i, clusterW t cl) ∧
      List.Forall₂ TrimRel cls (reconGo t mc mx prefer fuel cls i) ∧
      List.Chain' (fun a b : _Cluster => a.snip_end ≤ b.snip_start)
        (reconGo t mc mx prefer fuel cls i) := by
  intro fuel
  induction fuel with
  | zero =>
    intro cls i hi hW hchain hpairs hf
    rw [reconGo]
    refine ⟨hW, List.forall₂_same.mpr fun cl hcl => TrimRel_refl_of_W (hW cl hcl), ?_⟩
    apply chain'_snip_of_pairs
    intro k hk
    exact hpairs k (by omega) hk
  | succ fuel ih =>
    intro cls i hi hW hchain hpairs hf
    rw [reconGo]
    by_cases hlen : i < cls.length
    · rw [if_pos hlen]
      simp only []
      by_cases h1 : (cls.getD (i - 1) {}).snip_end ≤ (cls.getD i {}).snip_start
      · rw [if_pos h1]
        refine ih cls (i + 1) (by omega) hW hchain ?_ (by omega)
        intro k hk hk2
        by_cases hki : k + 1 < i
        · exact hpairs k hki hk2
        · have hkeq : k = i - 1 := by omega
          subst hkeq
          rw [show i - 1 + 1 = i by omega]
          exact h1
      · rw [if_neg h1]
        have hWp := hW _ (getD_mem_of_lt (show i - 1 < cls.length by omega))
        have hWc := hW _ (getD_mem_of_lt hlen)
        have hedge := chain'_get_edge hchain (show (i - 1) + 1 < cls.length by omega)
        rw [show i - 1 + 1 = i by omega] at hedge
        by_cases h2 : (cls.getD i {}).cov_start < (cls.getD (i - 1) {}).cov_end
        · exfalso
          obtain ⟨_, _, _, _, hpe, _, _⟩ := hWp
          obtain ⟨hc1, hc2, _, _, _, _, _⟩ := hWc
          omega
        · rw [if_neg h2]
          have hce : (cls.getD (i - 1) {}).cov_end ≤ (cls.getD i {}).snip_start := by
            obtain ⟨_, _, _, _, hpe, _, _⟩ := hWp
            obtain ⟨hc1, hc2, _, _, _, _, _⟩ := hWc
            omega
          set prev' : _Cluster :=
            { cls.getD (i - 1) {} with
              snip_end := max (cls.getD (i - 1) {}).cov_end
                (min (cls.getD (i - 1) {}).snip_end (cls.getD i {}).snip_start) } with hprev'
          have hWp' : clusterW t prev' := by
            obtain ⟨w1, w2, w3, w4, w5, w6, w7⟩ := hWp
            refine ⟨w1, w2, w3, le_max_left _ _, w5, w6, ?_⟩
            show max (cls.getD (i - 1) {}).cov_end
              (min (cls.getD (i - 1) {}).snip_end (cls.getD i {}).snip_start) ≤ (t.length : Int)
            omega
          have hW' : ∀ cl ∈ cls.set (i - 1) prev', clusterW t cl := by
            intro cl hcl
            rcases mem_set_cases _ _ _ _ hcl with h' | h'
            · subst h'
              exact hWp'
            · exact hW cl h'
          have hchain' := @chain'_prelim_set cls (i - 1) prev' hchain
            (show i - 1 < cls.length by omega) (by rw [hprev']) (by rw [hprev'])
          have hpairs' : ∀ k : Nat, k + 1 < i + 1 → k + 1 < (cls.set (i - 1) prev').length →
              ((cls.set (i - 1) prev').getD k {}).snip_end ≤
                ((cls.set (i - 1) prev').getD (k + 1) {}).snip_start := by
            intro k hk hk2
            rw [List.length_set] at hk2
            rw [getD_set _ _ _ _ (by omega), getD_set _ _ _ _ (by omega)]
            by_cases hk1 : i - 1 = k
            · rw [if_pos hk1, if_neg (by omega)]
              rw [show k + 1 = i by omega]
              show max (cls.getD (i - 1) {}).cov_end
                (min (cls.getD (i - 1) {}).snip_end (cls.getD i {}).snip_start) ≤
                (cls.getD i {}).snip_start
              omega
            · rw [if_neg hk1]
              by_cases hk2' : i - 1 = k + 1
              · rw [if_pos hk2']
                show (cls.getD k {}).snip_end ≤ (cls.getD (i - 1) {}).snip_start
                rw [hk2']
                exact hpairs k (by omega) (by omega)
              · rw [if_neg hk2']
                exact hpairs k (by omega) (by omega)
          have hres := ih (cls.set (i - 1) prev') (i + 1) (by omega) hW' hchain' hpairs'
            (by rw [List.length_set]; omega)
          refine ⟨hres.1, ?_, hres.2.2⟩
          have hstep : List.Forall₂ TrimRel cls (cls.set (i - 1) prev') := by
            apply forall₂_set_right cls (i - 1) prev'
              (fun cl hcl => TrimRel_refl_of_W (hW cl hcl))
            refine ⟨rfl, rfl, rfl, rfl, rfl, rfl, rfl, le_max_left _ _, ?_⟩
            show max (cls.getD (i - 1) {}).cov_end
              (min (cls.getD (i - 1) {}).snip_end (cls.getD i {}).snip_start) ≤
              (cls.getD (i - 1) {}).snip_end
            obtain ⟨_, _, _, w4, _, _, _⟩ := hWp
            omega
          exact forall₂_trimrel_trans hstep hres.2.1
    · rw [if_neg hlen]
      refine ⟨hW, List.forall₂_same.mpr fun cl hcl => TrimRel_refl_of_W (hW cl hcl), ?_⟩
      apply chain'_snip_of_pairs
      intro k hk
      exact hpairs k (by omega) hk

/-! ## Final-stage facts and emission -/

theorem dedupClustersFinal_spec (t : List Char) (L R : List CitationSuspect)
    (mc : Int) (mx : Option Int) (prefer : Bool)
    (hwf : ∀ s ∈ L ++ R, wfSuspect t s) (hmc : 1 ≤ mc) (hmx : optNonneg mx) :
    (∀ cl ∈ dedupClustersFinal t L R mc mx prefer, clusterW t cl) ∧
    List.Forall₂ TrimRel (dedupClustersSnipped t L R mc mx prefer)
      (dedupClustersFinal t L R mc mx prefer) ∧
    List.Chain' (fun a b : _Cluster => a.snip_end ≤ b.snip_start)
      (dedupClustersFinal t L R mc mx prefer) := by
  obtain ⟨hWs, hchain⟩ := dedupClustersSnipped_spec t L R mc mx prefer hwf hmc hmx
  unfold dedupClustersFinal _reconcile_adjacent_clusters
  exact reconGo_trim_spec t mc mx prefer _ _ 1 (by omega) hWs hchain
    (by intro k hk _; omega) (by omega)

theorem dedupClustersFinal_pres (t : List Char) (L R : List CitationSuspect)
    (mc : Int) (mx : Option Int) (prefer : Bool) :
    ∀ cl ∈ dedupClustersFinal t L R mc mx prefer,
      MFrom ((dedupInputs L R).1 ++ (dedupInputs L R).2) cl ∧ RepLinked cl ∧ CovMem cl := by
  obtain ⟨hrl, hflat⟩ := dedupClustersSnipped_members t L R mc mx prefer
  obtain ⟨_, _, hperm⟩ := dedupClustersGrouped_spec t L R mc mx
  have hsn : ∀ cl ∈ dedupClustersSnipped t L R mc mx prefer,
      MFrom ((dedupInputs L R).1 ++ (dedupInputs L R).2) cl ∧ RepLinked cl ∧ CovMem cl := by
    intro cl hcl
    refine ⟨?_, (hrl cl hcl).1, (hrl cl hcl).2⟩
    intro m hm
    have h1 : m ∈ flatMembers (dedupClustersSnipped t L R mc mx prefer) :=
      mem_flatMembers.mpr ⟨cl, hcl, hm⟩
    rw [hflat] at h1
    exact hperm.mem_iff.mp h1
  unfold dedupClustersFinal _reconcile_adjacent_clusters
  exact reconGo_pres t mc mx prefer _ _ _ 1 hsn

theorem dedupClustersFinal_flat (t : List Char) (L R : List CitationSuspect)
    (mc : Int) (mx : Option Int) (prefer : Bool) :
    flatMembers (dedupClustersFinal t L R mc mx prefer) =
      flatMembers (dedupClustersSnipped t L R mc mx prefer) := by
  unfold dedupClustersFinal _reconcile_adjacent_clusters
  exact reconGo_flat t mc mx prefer _ _ 1 (by omega)

/-- The representative actually emitted for a cluster. -/
def repOf (cl : _Cluster) : Option CitationSuspect :=
  match cl.rep with
  | some r => some r
  | none => _choose_representative cl

theorem repOf_eq_of_rep {cl : _Cluster} {r : CitationSuspect} (h : cl.rep = some r) :
    repOf cl = some r := by
  unfold repOf
  rw [h]

theorem choose_mem {cl : _Cluster} {r : CitationSuspect}
    (h : _choose_representative cl = some r) : r ∈ cl.members := by
  unfold _choose_representative at h
  cases hf : cl.members.filter (fun m => decide (m.detector_type = DetectorType.linker)) with
  | nil =>
    rw [hf] at h
    exact pyMin_mem h
  | cons y ys =>
    rw [hf] at h
    have := pyMin_mem h
    rw [← hf] at this
    exact (List.mem_filter.mp this).1

theorem repOf_mem {cl : _Cluster} {r : CitationSuspect} (hrl : RepLinked cl)
    (h : repOf cl = some r) : r ∈ cl.members := by
  obtain ⟨r', hr', hmem, _⟩ := hrl
  unfold repOf at h
  rw [hr'] at h
  injection h with h'
  subst h'
  exact hmem

theorem deduplicate_mem {t : List Char} {L R : List CitationSuspect}
    {mc : Int} {mx : Option Int} {prefer : Bool} {o : CitationSuspect} :
    o ∈ deduplicate t L R mc mx prefer ↔
      ∃ cl ∈ dedupClustersFinal t L R mc mx prefer, ∃ r, repOf cl = some r ∧
        o = { r with context_snippet := pyStrip (pySlice t cl.snip_start cl.snip_end) } := by
  unfold deduplicate
  rw [(pySorted_perm suspectLe _).mem_iff, List.mem_filterMap]
  constructor
  · rintro ⟨cl, hcl, hf⟩
    simp only [] at hf
    rcases hopt : repOf cl with _ | r
    · rw [show (match cl.rep with
          | some r => some r
          | none => _choose_representative cl) = repOf cl from rfl, hopt] at hf
      cases hf
    · rw [show (match cl.rep with
          | some r => some r
          | none => _choose_representative cl) = repOf cl from rfl, hopt] at hf
      simp only [Option.map_some'] at hf
      injection hf with hf'
      exact ⟨cl, hcl, r, hopt, hf'.symm⟩
  · rintro ⟨cl, hcl, r, hr, rfl⟩
    refine ⟨cl, hcl, ?_⟩
    simp only []
    rw [show (match cl.rep with
        | some r => some r
        | none => _choose_representative cl) = repOf cl from rfl, hr]
    rfl

/-! ## C9: termination of the reconciliation loop -/

/-- C9: the reconciliation loop terminates: any fuel past `2·(cluster count)`
iterations computes the same result (each iteration advances the index or
strictly drops the cluster count), and the result never has more clusters than
the input. -/
theorem reconcile_terminates (t : List Char) (mc : Int) (mx : Option Int)
    (prefer : Bool) (cls : List _Cluster) (fuel : Nat)
    (hfuel : 2 * cls.length + 1 ≤ fuel) :
    reconGo t mc mx prefer fuel cls 1 = _reconcile_adjacent_clusters cls t mc mx prefer ∧
    (_reconcile_adjacent_clusters cls t mc mx prefer).length ≤ cls.length := by
  constructor
  · unfold _reconcile_adjacent_clusters
    have h := reconGo_fuel_mono t mc mx prefer (2 * cls.length + 1) cls 1
      (fuel - (2 * cls.length + 1)) (by omega) (by omega)
    rw [show 2 * cls.length + 1 + (fuel - (2 * cls.length + 1)) = fuel by omega] at h
    exact h
  · unfold _reconcile_adjacent_clusters
    exact reconGo_length t mc mx prefer _ cls 1 (by omega)

/-- Witness for C9 at a concrete cluster list. -/
theorem reconcile_terminates_witness :
    reconGo [] 1 none true 7 [({} : _Cluster), ({} : _Cluster)] 1 =
      _reconcile_adjacent_clusters [({} : _Cluster), ({} : _Cluster)] [] 1 none true ∧
    (_reconcile_adjacent_clusters [({} : _Cluster), ({} : _Cluster)] [] 1 none true).length ≤
      [({} : _Cluster), ({} : _Cluster)].length :=
  reconcile_terminates [] 1 none true [{}, {}] 7 (by decide)

/-! ## C2: sortedness and non-overlap -/

theorem chain_le_all :
    ∀ (l : List _Cluster) (x : Int),
      List.Chain' (fun a b : _Cluster => a.snip_end ≤ b.snip_start) l →
      (∀ cl ∈ l, cl.snip_start ≤ cl.snip_end) →
      (∀ cl ∈ l.head?, x ≤ cl.snip_start) →
      ∀ b ∈ l, x ≤ b.snip_start := by
  intro l
  induction l with
  | nil =>
    intro x _ _ _ b hb
    cases hb
  | cons a l ih =>
    intro x hchain hws hhd b hb
    rcases List.mem_cons.mp hb with rfl | hb'
    · exact hhd b rfl
    · rcases List.chain'_cons'.mp hchain with ⟨hhd2, htl⟩
      refine ih x htl (fun cl hcl => hws cl (List.mem_cons_of_mem a hcl)) ?_ b hb'
      intro cl hcl
      have h1 := hhd a rfl
      have h2 := hws a (List.mem_cons_self a l)
      have h3 := hhd2 cl hcl
      omega

theorem pairwise_of_snip_chain {cls : List _Cluster}
    (hchain : List.Chain' (fun a b : _Cluster => a.snip_end ≤ b.snip_start) cls)
    (hws : ∀ cl ∈ cls, cl.snip_start ≤ cl.snip_end) :
    List.Pairwise (fun a b : _Cluster => a.snip_end ≤ b.snip_start) cls := by
  induction cls with
  | nil => exact List.Pairwise.nil
  | cons a l ih =>
    rcases List.chain'_cons'.mp hchain with ⟨hhd, htl⟩
    refine List.Pairwise.cons ?_ (ih htl fun cl hcl => hws cl (List.mem_cons_of_mem a hcl))
    exact chain_le_all l a.snip_end htl
      (fun cl hcl => hws cl (List.mem_cons_of_mem a hcl)) hhd

/-- C2: the final clusters' snippet windows are pairwise non-overlapping
(`snip_end ≤ snip_start` in order), and the emitted suspect list is sorted by
`(start, end)`. -/
theorem deduplicate_sorted_disjoint (t : List Char) (L R : List CitationSuspect)
    (mc : Int) (mx : Option Int) (prefer : Bool)
    (hwf : ∀ s ∈ L ++ R, wfSuspect t s) (hmc : 1 ≤ mc) (hmx : optNonneg mx) :
    List.Pairwise (fun a b : _Cluster => a.snip_end ≤ b.snip_start)
      (dedupClustersFinal t L R mc mx prefer) ∧
    List.Pairwise (fun a b : CitationSuspect => suspectLe a b = true)
      (deduplicate t L R mc mx prefer) := by
  obtain ⟨hW, _, hchain⟩ := dedupClustersFinal_spec t L R mc mx prefer hwf hmc hmx
  constructor
  · refine pairwise_of_snip_chain hchain ?_
    intro cl hcl
    obtain ⟨_, w2, w3, w4, _, _, _⟩ := hW cl hcl
    omega
  · unfold deduplicate
    exact pySorted_sorted suspectLe_trans suspectLe_total _

/-- Witness for C2 at a concrete input. -/
theorem deduplicate_sorted_disjoint_witness :
    List.Pairwise (fun a b : _Cluster => a.snip_end ≤ b.snip_start)
      (dedupClustersFinal ("Lei 1. Art 2; fim.".data)
        [⟨"Lei 1".data, [], 0, 5, DetectorType.linker, []⟩]
        [⟨"Art 2".data, [], 7, 12, DetectorType.regex, []⟩] 2 (some 6) true) ∧
    List.Pairwise (fun a b : CitationSuspect => suspectLe a b = true)
      (deduplicate ("Lei 1. Art 2; fim.".data)
        [⟨"Lei 1".data, [], 0, 5, DetectorType.linker, []⟩]
        [⟨"Art 2".data, [], 7, 12, DetectorType.regex, []⟩] 2 (some 6) true) :=
  deduplicate_sorted_disjoint ("Lei 1. Art 2; fim.".data)
    [⟨"Lei 1".data, [], 0, 5, DetectorType.linker, []⟩]
    [⟨"Art 2".data, [], 7, 12, DetectorType.regex, []⟩] 2 (some 6) true
    (by
      intro s hs
      rcases List.mem_cons.mp hs with rfl | hs'
      · exact ⟨by decide, by decide, by decide⟩
      rcases List.mem_cons.mp hs' with rfl | hs''
      · exact ⟨by decide, by decide, by decide⟩
      cases hs'')
    (by decide) (fun v hv => by injection hv with h; omega)

/-! ## Output origin: every emitted suspect is an input with a new snippet -/

theorem deduplicate_origin {t : List Char} {L R : List CitationSuspect}
    {mc : Int} {mx : Option Int} {prefer : Bool} {o : CitationSuspect}
    (ho : o ∈ deduplicate t L R mc mx prefer) :
    ∃ s, (s ∈ L ∨ (s ∈ R ∧ ∀ l ∈ L,
        _overlaps (s.start, s.«end») (l.start, l.«end») = false)) ∧
      o = { s with context_snippet := o.context_snippet } := by
  obtain ⟨cl, hcl, r, hr, rfl⟩ := deduplicate_mem.mp ho
  obtain ⟨hMF, hRL, _⟩ := dedupClustersFinal_pres t L R mc mx prefer cl hcl
  have hrm : r ∈ cl.members := repOf_mem hRL hr
  exact ⟨r, dedupInputs_mem (hMF r hrm), rfl⟩

/-! ## C3: linker precedence -/

/-- C3: every output of `deduplicate` originates (all fields except
`context_snippet` identical) from a linker suspect or from a regex suspect that
overlaps no linker suspect's span — so a regex suspect overlapping a linker
span never reaches the output — and every linker suspect's cluster emits a
representative of linker detector type. -/
theorem deduplicate_linker_precedence (t : List Char) (L R : List CitationSuspect)
    (mc : Int) (mx : Option Int) (prefer : Bool)
    (hL : ∀ l ∈ L, l.detector_type = DetectorType.linker) :
    (∀ o ∈ deduplicate t L R mc mx prefer, ∃ s,
      (s ∈ L ∨ (s ∈ R ∧ ∀ l ∈ L,
        _overlaps (s.start, s.«end») (l.start, l.«end») = false)) ∧
      o = { s with context_snippet := o.context_snippet }) ∧
    (∀ l ∈ L, ∃ o ∈ deduplicate t L R mc mx prefer,
      o.detector_type = DetectorType.linker) := by
  constructor
  · intro o ho
    exact deduplicate_origin ho
  · intro l hl
    have h1 : l ∈ (dedupInputs L R).1 ++ (dedupInputs L R).2 :=
      List.mem_append.mpr (Or.inl (dedupInputs_linker_mem hl))
    obtain ⟨_, _, hperm⟩ := dedupClustersGrouped_spec t L R mc mx
    have h2 : l ∈ flatMembers (dedupClustersGrouped t L R mc mx) := hperm.mem_iff.mpr h1
    obtain ⟨_, hflat⟩ := dedupClustersSnipped_members t L R mc mx prefer
    rw [← hflat] at h2
    rw [← dedupClustersFinal_flat t L R mc mx prefer] at h2
    obtain ⟨cl, hcl, hlm⟩ := mem_flatMembers.mp h2
    obtain ⟨_, hRL, _⟩ := dedupClustersFinal_pres t L R mc mx prefer cl hcl
    obtain ⟨r, hrep, _, himp⟩ := hRL
    refine ⟨{ r with context_snippet := pyStrip (pySlice t cl.snip_start cl.snip_end) },
      deduplicate_mem.mpr ⟨cl, hcl, r, repOf_eq_of_rep hrep, rfl⟩, ?_⟩
    show r.detector_type = DetectorType.linker
    exact himp ⟨l, hlm, hL l hl⟩

/-- Witness for C3 at a concrete input. -/
theorem deduplicate_linker_precedence_witness :
    (∀ o ∈ deduplicate ("Lei 1. Art 2; fim.".data)
        [⟨"Lei 1".data, [], 0, 5, DetectorType.linker, []⟩]
        [⟨"Art 2".data, [], 7, 12, DetectorType.regex, []⟩] 2 (some 6) true, ∃ s,
      (s ∈ [⟨"Lei 1".data, [], 0, 5, DetectorType.linker, []⟩] ∨
        (s ∈ [(⟨"Art 2".data, [], 7, 12, DetectorType.regex, []⟩ : CitationSuspect)] ∧
          ∀ l ∈ [(⟨"Lei 1".data, [], 0, 5, DetectorType.linker, []⟩ : CitationSuspect)],
            _overlaps (s.start, s.«end») (l.start, l.«end») = false)) ∧
      o = { s with context_snippet := o.context_snippet }) ∧
    (∀ l ∈ [(⟨"Lei 1".data, [], 0, 5, DetectorType.linker, []⟩ : CitationSuspect)],
      ∃ o ∈ deduplicate ("Lei 1. Art 2; fim.".data)
        [⟨"Lei 1".data, [], 0, 5, DetectorType.linker, []⟩]
        [⟨"Art 2".data, [], 7, 12, DetectorType.regex, []⟩] 2 (some 6) true,
        o.detector_type = DetectorType.linker) :=
  deduplicate_linker_precedence ("Lei 1. Art 2; fim.".data)
    [⟨"Lei 1".data, [], 0, 5, DetectorType.linker, []⟩]
    [⟨"Art 2".data, [], 7, 12, DetectorType.regex, []⟩] 2 (some 6) true (by decide)

/-! ## C10: frame condition -/

/-- C10: every output of `deduplicate` equals an input suspect from
`linker ++ regex` with only its `context_snippet` field replaced; the fields
`suspect_string`, `start`, `end`, `detector_type` and `identified_citations`
are unchanged.  (The in-place Python mutation of the representative object is
not statable in a pure embedding; this is its value-level content.) -/
theorem deduplicate_frame (t : List Char) (L R : List CitationSuspect)
    (mc : Int) (mx : Option Int) (prefer : Bool) :
    ∀ o ∈ deduplicate t L R mc mx prefer, ∃ s ∈ L ++ R,
      o.suspect_string = s.suspect_string ∧ o.start = s.start ∧ o.«end» = s.«end» ∧
      o.detector_type = s.detector_type ∧
      o.identified_citations = s.identified_citations ∧
      o = { s with context_snippet := o.context_snippet } := by
  intro o ho
  obtain ⟨s, hs, heq⟩ := deduplicate_origin ho
  have hmem : s ∈ L ++ R := by
    rcases hs with h | ⟨h, _⟩
    · exact List.mem_append.mpr (Or.inl h)
    · exact List.mem_append.mpr (Or.inr h)
  refine ⟨s, hmem, ?_, ?_, ?_, ?_, ?_, heq⟩ <;> rw [heq]

/-- Witness for C10 at a concrete input and output. -/
theorem deduplicate_frame_witness :
    ∃ s ∈ [(⟨"Lei 1".data, [], 0, 5, DetectorType.linker, []⟩ : CitationSuspect)] ++
        [(⟨"Art 2".data, [], 7, 12, DetectorType.regex, []⟩ : CitationSuspect)],
      (⟨"Lei 1".data, "Lei 1. Art 2; fim.".data, 0, 5, DetectorType.linker, []⟩ :
        CitationSuspect).suspect_string = s.suspect_string ∧
      (⟨"Lei 1".data, "Lei 1. Art 2; fim.".data, 0, 5, DetectorType.linker, []⟩ :
        CitationSuspect).start = s.start ∧
      (⟨"Lei 1".data, "Lei 1. Art 2; fim.".data, 0, 5, DetectorType.linker, []⟩ :
        CitationSuspect).«end» = s.«end» ∧
      (⟨"Lei 1".data, "Lei 1. Art 2; fim.".data, 0, 5, DetectorType.linker, []⟩ :
        CitationSuspect).detector_type = s.detector_type ∧
      (⟨"Lei 1".data, "Lei 1. Art 2; fim.".data, 0, 5, DetectorType.linker, []⟩ :
        CitationSuspect).identified_citations = s.identified_citations ∧
      (⟨"Lei 1".data, "Lei 1. Art 2; fim.".data, 0, 5, DetectorType.linker, []⟩ :
        CitationSuspect) = { s with context_snippet :=
          (⟨"Lei 1".data, "Lei 1. Art 2; fim.".data, 0, 5, DetectorType.linker, []⟩ :
            CitationSuspect).context_snippet } :=
  deduplicate_frame ("Lei 1. Art 2; fim.".data)
    [⟨"Lei 1".data, [], 0, 5, DetectorType.linker, []⟩]
    [⟨"Art 2".data, [], 7, 12, DetectorType.regex, []⟩] 2 (some 6) true
    ⟨"Lei 1".data, "Lei 1. Art 2; fim.".data, 0, 5, DetectorType.linker, []⟩ (by decide)

/-! ## C5: staged coverage invariants -/

/-- C5 counterexample: right after clustering the snippet span is still the
dataclass default `(0, 0)` and does not contain the coverage span `(5, 10)`. -/
theorem cluster_stage_invariants_counterexample :
    ∃ cl ∈ dedupClustersGrouped ("abcdefghijkl".data)
        [⟨"fghij".data, [], 5, 10, DetectorType.linker, []⟩] [] 2 (some 6),
      ¬(cl.snip_start ≤ cl.cov_start ∧ cl.cov_end ≤ cl.snip_end) := by decide

/-- C5 (amended): at every stage the coverage span contains every member's
span; the snippet span contains the coverage span after snippet computation
and after reconciliation — but not right after clustering, where it is still
the default `(0, 0)`. -/
theorem cluster_stage_invariants (t : List Char) (L R : List CitationSuspect)
    (mc : Int) (mx : Option Int) (prefer : Bool)
    (hwf : ∀ s ∈ L ++ R, wfSuspect t s) (hmc : 1 ≤ mc) (hmx : optNonneg mx) :
    (∀ cl ∈ dedupClustersGrouped t L R mc mx, CovMem cl) ∧
    (∀ cl ∈ dedupClustersSnipped t L R mc mx prefer,
      CovMem cl ∧ cl.snip_start ≤ cl.cov_start ∧ cl.cov_end ≤ cl.snip_end) ∧
    (∀ cl ∈ dedupClustersFinal t L R mc mx prefer,
      CovMem cl ∧ cl.snip_start ≤ cl.cov_start ∧ cl.cov_end ≤ cl.snip_end) := by
  refine ⟨?_, ?_, ?_⟩
  · intro cl hcl
    obtain ⟨_, hall, _, _⟩ := (dedupClustersGrouped_spec t L R mc mx).1 cl hcl
    intro m hm
    exact ⟨(hall m hm).1, (hall m hm).2.1⟩
  · intro cl hcl
    have hW := (dedupClustersSnipped_spec t L R mc mx prefer hwf hmc hmx).1 cl hcl
    obtain ⟨_, w2, _, w4, _, _, _⟩ := hW
    exact ⟨((dedupClustersSnipped_members t L R mc mx prefer).1 cl hcl).2, w2, w4⟩
  · intro cl hcl
    have hW := (dedupClustersFinal_spec t L R mc mx prefer hwf hmc hmx).1 cl hcl
    obtain ⟨_, w2, _, w4, _, _, _⟩ := hW
    exact ⟨(dedupClustersFinal_pres t L R mc mx prefer cl hcl).2.2, w2, w4⟩

/-- Witness for C5 at a concrete input. -/
theorem cluster_stage_invariants_witness :
    (∀ cl ∈ dedupClustersGrouped ("Lei 1. Art 2; fim.".data)
        [⟨"Lei 1".data, [], 0, 5, DetectorType.linker, []⟩]
        [⟨"Art 2".data, [], 7, 12, DetectorType.regex, []⟩] 2 (some 6), CovMem cl) ∧
    (∀ cl ∈ dedupClustersSnipped ("Lei 1. Art 2; fim.".data)
        [⟨"Lei 1".data, [], 0, 5, DetectorType.linker, []⟩]
        [⟨"Art 2".data, [], 7, 12, DetectorType.regex, []⟩] 2 (some 6) true,
      CovMem cl ∧ cl.snip_start ≤ cl.cov_start ∧ cl.cov_end ≤ cl.snip_end) ∧
    (∀ cl ∈ dedupClustersFinal ("Lei 1. Art 2; fim.".data)
        [⟨"Lei 1".data, [], 0, 5, DetectorType.linker, []⟩]
        [⟨"Art 2".data, [], 7, 12, DetectorType.regex, []⟩] 2 (some 6) true,
      CovMem cl ∧ cl.snip_start ≤ cl.cov_start ∧ cl.cov_end ≤ cl.snip_end) :=
  cluster_stage_invariants ("Lei 1. Art 2; fim.".data)
    [⟨"Lei 1".data, [], 0, 5, DetectorType.linker, []⟩]
    [⟨"Art 2".data, [], 7, 12, DetectorType.regex, []⟩] 2 (some 6) true
    (by
      intro s hs
      rcases List.mem_cons.mp hs with rfl | hs'
      · exact ⟨by decide, by decide, by decide⟩
      rcases List.mem_cons.mp hs' with rfl | hs''
      · exact ⟨by decide, by decide, by decide⟩
      cases hs'')
    (by decide) (fun v hv => by injection hv with h; omega)

/-! ## C1: detect_with_metrics raises a TypeError on every input -/

/-- C1 (code bug): `detect_with_metrics` never returns a `(suspects, metrics)`
pair — its call to `deduplicate` passes the keyword argument `max_gap`, which
`deduplicate`'s signature does not accept, so Python raises `TypeError` on
every input; in particular the empty string raises instead of returning
`([], zeros)`. -/
theorem detect_with_metrics_always_type_error :
    (∀ (t : List Char) (useLinker : Bool)
        (linkerRun : Except LinkerError (List CitationSuspect))
        (scannerRun : List CitationSuspect),
      detect_with_metrics t useLinker linkerRun scannerRun =
        Except.error (PyCallError.unexpectedKeyword "max_gap")) ∧
    detect_with_metrics [] true (Except.ok []) [] =
      Except.error (PyCallError.unexpectedKeyword "max_gap") :=
  ⟨fun _ _ _ _ => rfl, rfl⟩

/-! ## C4: snippet containment -/

theorem pySlice_eq_drop_take (t : List Char) {a b : Int} (ha : 0 ≤ a)
    (hb : b ≤ (t.length : Int)) (hab : a ≤ b) :
    pySlice t a b = (t.drop a.toNat).take (b.toNat - a.toNat) := by
  simp only [pySlice, pySliceIdx]
  rw [if_neg (by omega), if_neg (by omega)]
  rw [min_eq_left (by omega), min_eq_left (by omega)]

theorem pyStrip_contained (l : List Char) : pyStrip l <:+: l := by
  have h1 : l.dropWhile isPySpace <:+ l := List.dropWhile_suffix _
  have h2 : (l.dropWhile isPySpace).reverse.dropWhile isPySpace <:+
      (l.dropWhile isPySpace).reverse := List.dropWhile_suffix _
  have h3 := List.reverse_prefix.mpr h2
  rw [List.reverse_reverse] at h3
  exact (h3.isInfix).trans h1.isInfix

theorem dropWhile_keeps (p : Char → Bool) (x y m1 : List Char) (c : Char)
    (hc : p c = false) :
    ∃ x', (x ++ (c :: m1) ++ y).dropWhile p = x' ++ (c :: m1) ++ y := by
  rw [List.append_assoc, List.dropWhile_append]
  by_cases hx : (x.dropWhile p).isEmpty = true
  · rw [if_pos hx]
    refine ⟨[], ?_⟩
    rw [List.nil_append]
    simp [List.cons_append, List.dropWhile_cons, hc]
  · rw [if_neg hx]
    refine ⟨x.dropWhile p, ?_⟩
    rw [List.append_assoc]

theorem pyStrip_keeps_mid (x y m1 m2 : List Char) (c d : Char)
    (hmid : c :: m1 = m2 ++ [d]) (hc : isPySpace c = false)
    (hd : isPySpace d = false) :
    (c :: m1) <:+: pyStrip (x ++ (c :: m1) ++ y) := by
  obtain ⟨x', hx'⟩ := dropWhile_keeps isPySpace x y m1 c hc
  unfold pyStrip
  rw [hx']
  have hrev : (x' ++ (c :: m1) ++ y).reverse =
      y.reverse ++ (d :: m2.reverse) ++ x'.reverse := by
    rw [hmid]
    simp [List.reverse_append]
  rw [hrev]
  have hd' : c :: m1 = [] ++ (c :: m1) ++ [] := by simp
  obtain ⟨y', hy'⟩ := dropWhile_keeps isPySpace y.reverse x'.reverse m2.reverse d hd
  rw [hy']
  refine ⟨x', y'.reverse, ?_⟩
  rw [hmid]
  simp [List.reverse_append]

theorem slice_decomp (t : List Char) (aN sN eN bN : Nat)
    (h1 : aN ≤ sN) (h2 : sN < eN) (h3 : eN ≤ bN) (h4 : bN ≤ t.length) :
    (t.drop aN).take (bN - aN) =
      ((t.drop aN).take (sN - aN)) ++ ((t.drop sN).take (eN - sN)) ++
        ((t.drop eN).take (bN - eN)) := by
  rw [show bN - aN = (sN - aN) + ((eN - sN) + (bN - eN)) by omega]
  rw [List.take_add]
  rw [List.drop_drop]
  rw [show aN + (sN - aN) = sN by omega]
  rw [List.take_add]
  rw [List.drop_drop]
  rw [show sN + (eN - sN) = eN by omega]
  rw [List.append_assoc]

theorem slice_shape (t : List Char) (sN eN : Nat) (h2 : sN < eN)
    (h4 : eN ≤ t.length) :
    ∃ m1 m2, (t.drop sN).take (eN - sN) = t.getD sN '\x00' :: m1 ∧
      (t.drop sN).take (eN - sN) = m2 ++ [t.getD (eN - 1) '\x00'] := by
  have hs : sN < t.length := by omega
  have he : eN - 1 < t.length := by omega
  refine ⟨(t.drop (sN + 1)).take (eN - sN - 1), (t.drop sN).take (eN - 1 - sN), ?_, ?_⟩
  · rw [List.drop_eq_getElem_cons hs]
    rw [show eN - sN = (eN - sN - 1) + 1 by omega]
    rw [List.take_succ_cons]
    rw [List.getD_eq_getElem t '\x00' hs]
    rw [show eN - sN - 1 + 1 - 1 = eN - sN - 1 by omega]
  · rw [show eN - sN = (eN - 1 - sN) + 1 by omega]
    rw [List.take_succ]
    rw [List.getElem?_drop]
    rw [show sN + (eN - 1 - sN) = eN - 1 by omega]
    rw [List.getElem?_eq_getElem he]
    rw [← List.getD_eq_getElem t '\x00' he]
    rfl

/-- C4 counterexample: for the one-space text with a linker suspect spanning
the whole text, `.strip()` removes the only character, so the emitted
`context_snippet` is empty and does not contain the suspect's own span text. -/
theorem snippet_containment_counterexample :
    ∃ o ∈ deduplicate (" ".data)
        [⟨" ".data, [], 0, 1, DetectorType.linker, []⟩] [] 2 (some 6) true,
      ¬ (pySlice (" ".data) o.start o.«end») <:+: o.context_snippet := by decide

/-- C4 (amended): every emitted `context_snippet` is a contiguous substring of
the original text, obtained by `strip()` from a window `[a, b)` with
`a ≤ start` and `end ≤ b`; it contains the literal span text whenever the span
is empty or both span edge characters are non-whitespace (the `.strip()` can
eat a whitespace-edged span, see the counterexample). -/
theorem deduplicate_snippet_containment (t : List Char) (L R : List CitationSuspect)
    (mc : Int) (mx : Option Int) (prefer : Bool)
    (hwf : ∀ s ∈ L ++ R, wfSuspect t s) (hmc : 1 ≤ mc) (hmx : optNonneg mx) :
    ∀ o ∈ deduplicate t L R mc mx prefer,
      o.context_snippet <:+: t ∧
      (∃ a b : Int, 0 ≤ a ∧ a ≤ o.start ∧ o.«end» ≤ b ∧ b ≤ (t.length : Int) ∧
        o.context_snippet = pyStrip (pySlice t a b)) ∧
      ((o.start = o.«end» ∨
        (isPySpace (pyCharAt t o.start) = false ∧
         isPySpace (pyCharAt t (o.«end» - 1)) = false)) →
        pySlice t o.start o.«end» <:+: o.context_snippet) := by
  intro o ho
  obtain ⟨cl, hcl, r, hr, rfl⟩ := deduplicate_mem.mp ho
  obtain ⟨hWall, _, _⟩ := dedupClustersFinal_spec t L R mc mx prefer hwf hmc hmx
  obtain ⟨w1, w2, w3, w4, w5, w6, w7⟩ := hWall cl hcl
  obtain ⟨hMF, hRL, hCM⟩ := dedupClustersFinal_pres t L R mc mx prefer cl hcl
  have hrm : r ∈ cl.members := repOf_mem hRL hr
  obtain ⟨hc1, hc2⟩ := hCM r hrm
  have hwfr : wfSpan t r.start r.«end» := by
    rcases dedupInputs_mem (hMF r hrm) with h | ⟨h, _⟩
    · exact hwf r (List.mem_append.mpr (Or.inl h))
    · exact hwf r (List.mem_append.mpr (Or.inr h))
  obtain ⟨hr0, hrse, hrlen⟩ := hwfr
  have hab : cl.snip_start ≤ cl.snip_end := by omega
  refine ⟨?_, ?_, ?_⟩
  · show pyStrip (pySlice t cl.snip_start cl.snip_end) <:+: t
    refine (pyStrip_contained _).trans ?_
    rw [pySlice_eq_drop_take t w6 w7 hab]
    exact ((List.take_prefix _ _).isInfix).trans ((List.drop_suffix _ _).isInfix)
  · exact ⟨cl.snip_start, cl.snip_end, w6,
      show cl.snip_start ≤ r.start by omega,
      show r.«end» ≤ cl.snip_end by omega, w7, rfl⟩
  · intro hcond
    show pySlice t r.start r.«end» <:+:
      pyStrip (pySlice t cl.snip_start cl.snip_end)
    by_cases hse : r.start = r.«end»
    · rw [pySlice_eq_drop_take t hr0 hrlen hrse]
      rw [show r.«end».toNat - r.start.toNat = 0 by omega, List.take_zero]
      exact List.nil_infix
    · have hlt : r.start < r.«end» := by omega
      have hcond' : isPySpace (pyCharAt t r.start) = false ∧
          isPySpace (pyCharAt t (r.«end» - 1)) = false := by
        rcases hcond with h | h
        · exact absurd h hse
        · exact h
      obtain ⟨hcs, hce⟩ := hcond'
      have hsNe : r.start.toNat < r.«end».toNat := by omega
      have heNlen : r.«end».toNat ≤ t.length := by omega
      have hcS : isPySpace (t.getD r.start.toNat '\x00') = false := by
        rw [show t.getD r.start.toNat '\x00' = pyCharAt t r.start by
          rw [pyCharAt, if_pos hr0]]
        exact hcs
      have hcE : isPySpace (t.getD (r.«end».toNat - 1) '\x00') = false := by
        rw [show t.getD (r.«end».toNat - 1) '\x00' = pyCharAt t (r.«end» - 1) by
          rw [pyCharAt, if_pos (by omega : (0:Int) ≤ r.«end» - 1)]
          rw [show (r.«end» - 1).toNat = r.«end».toNat - 1 by omega]]
        exact hce
      obtain ⟨m1, m2, hm1, hm2⟩ := slice_shape t r.start.toNat r.«end».toNat hsNe heNlen
      have hWdec : pySlice t cl.snip_start cl.snip_end =
          ((t.drop cl.snip_start.toNat).take (r.start.toNat - cl.snip_start.toNat)) ++
            ((t.drop r.start.toNat).take (r.«end».toNat - r.start.toNat)) ++
            ((t.drop r.«end».toNat).take (cl.snip_end.toNat - r.«end».toNat)) := by
        rw [pySlice_eq_drop_take t w6 w7 hab]
        exact slice_decomp t cl.snip_start.toNat r.start.toNat r.«end».toNat
          cl.snip_end.toNat (by omega) (by omega) (by omega) (by omega)
      have hinfix := pyStrip_keeps_mid
        ((t.drop cl.snip_start.toNat).take (r.start.toNat - cl.snip_start.toNat))
        ((t.drop r.«end».toNat).take (cl.snip_end.toNat - r.«end».toNat))
        m1 m2 (t.getD r.start.toNat '\x00') (t.getD (r.«end».toNat - 1) '\x00')
        (hm1.symm.trans hm2) hcS hcE
      rw [pySlice_eq_drop_take t hr0 hrlen hrse, hWdec, hm1]
      exact hinfix

/-- Witness for C4 at a concrete input and output. -/
theorem deduplicate_snippet_containment_witness :
    (⟨"Lei 1".data, "Lei 1. Art 2; fim.".data, 0, 5, DetectorType.linker, []⟩ :
        CitationSuspect).context_snippet <:+: ("Lei 1. Art 2; fim.".data) ∧
    (∃ a b : Int, 0 ≤ a ∧
      a ≤ (⟨"Lei 1".data, "Lei 1. Art 2; fim.".data, 0, 5, DetectorType.linker, []⟩ :
        CitationSuspect).start ∧
      (⟨"Lei 1".data, "Lei 1. Art 2; fim.".data, 0, 5, DetectorType.linker, []⟩ :
        CitationSuspect).«end» ≤ b ∧
      b ≤ (("Lei 1. Art 2; fim.".data).length : Int) ∧
      (⟨"Lei 1".data, "Lei 1. Art 2; fim.".data, 0, 5, DetectorType.linker, []⟩ :
        CitationSuspect).context_snippet =
        pyStrip (pySlice ("Lei 1. Art 2; fim.".data) a b)) ∧
    (((⟨"Lei 1".data, "Lei 1. Art 2; fim.".data, 0, 5, DetectorType.linker, []⟩ :
        CitationSuspect).start =
      (⟨"Lei 1".data, "Lei 1. Art 2; fim.".data, 0, 5, DetectorType.linker, []⟩ :
        CitationSuspect).«end» ∨
      (isPySpace (pyCharAt ("Lei 1. Art 2; fim.".data)
        (⟨"Lei 1".data, "Lei 1. Art 2; fim.".data, 0, 5, DetectorType.linker, []⟩ :
          CitationSuspect).start) = false ∧
       isPySpace (pyCharAt ("Lei 1. Art 2; fim.".data)
        ((⟨"Lei 1".data, "Lei 1. Art 2; fim.".data, 0, 5, DetectorType.linker, []⟩ :
          CitationSuspect).«end» - 1)) = false)) →
      pySlice ("Lei 1. Art 2; fim.".data)
        (⟨"Lei 1".data, "Lei 1. Art 2; fim.".data, 0, 5, DetectorType.linker, []⟩ :
          CitationSuspect).start
        (⟨"Lei 1".data, "Lei 1. Art 2; fim.".data, 0, 5, DetectorType.linker, []⟩ :
          CitationSuspect).«end» <:+:
        (⟨"Lei 1".data, "Lei 1. Art 2; fim.".data, 0, 5, DetectorType.linker, []⟩ :
          CitationSuspect).context_snippet) :=
  deduplicate_snippet_containment ("Lei 1. Art 2; fim.".data)
    [⟨"Lei 1".data, [], 0, 5, DetectorType.linker, []⟩]
    [⟨"Art 2".data, [], 7, 12, DetectorType.regex, []⟩] 2 (some 6) true
    (by
      intro s hs
      rcases List.mem_cons.mp hs with rfl | hs'
      · exact ⟨by decide, by decide, by decide⟩
      rcases List.mem_cons.mp hs' with rfl | hs''
      · exact ⟨by decide, by decide, by decide⟩
      cases hs'')
    (by decide) (fun v hv => by injection hv with h; omega)
    ⟨"Lei 1".data, "Lei 1. Art 2; fim.".data, 0, 5, DetectorType.linker, []⟩
    (by decide)

end LexAudit
